import Mathlib

/-!
Verification of the Natac map-generation subsystem.

JavaScript / TypeScript sources are shallowly embedded: JS numbers are
modelled as exact rationals (ℚ) or integers (ℤ) with explicit wrap-around
where the source relies on 32-bit semantics; JS exceptions become Except /
Option results; mutable loops become folds or explicit recursion.
Comparisons of Euclidean distances (the source applies Math.sqrt before
comparing) are modelled by comparing squared distances, which is equivalent
because sqrt is strictly monotone on nonnegative reals.
-/

set_option maxHeartbeats 1000000

namespace Natac

/-- A 2D point with exact rational coordinates. -/
abbrev Q2 : Type := ℚ × ℚ

/-- Squared Euclidean distance.  The source's distance(p1,p2) is the square
root of this; every distance comparison in the source is modelled by the
corresponding comparison of squares. -/
def distSq (p q : Q2) : ℚ := (p.1 - q.1) ^ 2 + (p.2 - q.2) ^ 2

/-- Midpoint of two points, as in merge4SidedTiles. -/
def midpointQ (p q : Q2) : Q2 := ((p.1 + q.1) / 2, (p.2 + q.2) / 2)

namespace Utils

/-- JS ToInt32 conversion: the effect of the bitwise operations in
SeededRandom.hashCode (hash << 5 and hash & hash coerce to signed 32 bit). -/
def toInt32 (x : ℤ) : ℤ := (x + 2 ^ 31) % 2 ^ 32 - 2 ^ 31

/-- One step of SeededRandom.hashCode:
hash = ((hash << 5) - hash) + charCode; hash = hash & hash. -/
def hashStep (h : ℤ) (c : Char) : ℤ := toInt32 (toInt32 (h * 32) - h + c.toNat)

/-- SeededRandom.hashCode: fold hashStep over the characters, then Math.abs. -/
def hashCode (s : String) : ℤ := (s.data.foldl hashStep 0).natAbs

/-- SeededRandom state: the current seed field. -/
structure Rng where
  seed : ℤ
deriving DecidableEq

/-- SeededRandom constructor with an explicitly supplied seed
(string seeds are hashed, numeric seeds are used as-is). -/
def mkRng : String ⊕ ℤ → Rng
  | Sum.inl s => ⟨hashCode s⟩
  | Sum.inr n => ⟨n⟩

/-- SeededRandom.next: one LCG step.  The JS % operator is truncated
remainder, i.e. Int.tmod. -/
def next (r : Rng) : ℚ × Rng :=
  let s := Int.tmod (r.seed * 1664525 + 1013904223) (2 ^ 32)
  ((s : ℚ) / (2 ^ 32 : ℚ), ⟨s⟩)

/-- SeededRandom.nextInt(min, max) = floor(next() * (max - min + 1)) + min. -/
def nextInt (lo hi : ℤ) (r : Rng) : ℤ × Rng :=
  let v := next r
  (⌊v.1 * ((hi : ℚ) - (lo : ℚ) + 1)⌋ + lo, v.2)

/-- The JS destructuring swap of two array entries (out-of-range indices
cannot occur at the call site; they leave the list unchanged here). -/
def swapList (l : List α) (i j : Nat) : List α :=
  match l.get? i, l.get? j with
  | some a, some b => (l.set i b).set j a
  | _, _ => l

/-- Fisher-Yates loop of SeededRandom.shuffle; the argument counts the
current index i down to 1. -/
def shuffleGo : List α → Rng → Nat → List α × Rng
  | l, r, 0 => (l, r)
  | l, r, i + 1 =>
    let p := nextInt 0 (Int.ofNat (i + 1)) r
    shuffleGo (swapList l (i + 1) p.1.toNat) p.2 i

/-- SeededRandom.shuffle: copy the array and run Fisher-Yates downwards from
the last index. -/
def shuffle (l : List α) (r : Rng) : List α × Rng := shuffleGo l r (l.length - 1)

/-- Character used for one base-36 digit. -/
def base36Char (n : Nat) : Char :=
  if n < 10 then Char.ofNat (48 + n) else Char.ofNat (87 + n)

/-- Base-36 fraction digits of a number in [0,1). -/
def base36Digits : Nat → ℚ → List Char
  | 0, _ => []
  | k + 1, x =>
    let y := x * 36
    let d := (⌊y⌋).toNat % 36
    base36Char d :: base36Digits k (y - (⌊y⌋ : ℚ))

/-- generateId from src/core/utils.ts: prefix ++ "-" ++ the base-36 fraction
digits of a draw from the global, unseeded Math.random.  The draw is the
explicit argument rnd; the digit expansion is modelled at the full 9-digit
width (JS trims trailing zeros, which does not affect whether two draws give
different ids). -/
def generateId (pre : String) (rnd : ℚ) : String :=
  pre ++ "-" ++ String.mk (base36Digits 9 rnd)

end Utils

namespace Mapgen

/-- inCircumcircle from src/mapgen.js (lines 80-93): the query point (px,py)
is subtracted from each of a, b, c, and the cofactor expansion of the
standard 3x3 in-circle determinant is compared with 0. -/
def inCircumcircle (px py ax ay bx byc cx cy : ℚ) : Bool :=
  let ax_ := ax - px
  let ay_ := ay - py
  let bx_ := bx - px
  let by_ := byc - py
  let cx_ := cx - px
  let cy_ := cy - py
  decide
    ((ax_ * ax_ + ay_ * ay_) * (bx_ * cy_ - cx_ * by_) -
        (bx_ * bx_ + by_ * by_) * (ax_ * cy_ - cx_ * ay_) +
        (cx_ * cx_ + cy_ * cy_) * (ax_ * by_ - bx_ * ay_) > 0)

end Mapgen

namespace DelGen

/-- inCircumcircle from the delaunayGenerator source (Bowyer-Watson module):
identical point-relative determinant test, taking points as pairs. -/
def inCircumcircleP (p a b c : Natac.Q2) : Bool :=
  let ax := a.1 - p.1
  let ay := a.2 - p.2
  let bx := b.1 - p.1
  let by_ := b.2 - p.2
  let cx := c.1 - p.1
  let cy := c.2 - p.2
  let det :=
    (ax * ax + ay * ay) * (bx * cy - cx * by_) -
      (bx * bx + by_ * by_) * (ax * cy - cx * ay) +
      (cx * cx + cy * cy) * (ax * by_ - bx * ay)
  decide (det > 0)

end DelGen

/-- The standard 3x3 in-circumcircle matrix in point-relative coordinates:
rows are (a-p, |a-p|^2), (b-p, |b-p|^2), (c-p, |c-p|^2). -/
def circleMatrix (p a b c : Q2) : Matrix (Fin 3) (Fin 3) ℚ :=
  !![a.1 - p.1, a.2 - p.2, (a.1 - p.1) ^ 2 + (a.2 - p.2) ^ 2;
     b.1 - p.1, b.2 - p.2, (b.1 - p.1) ^ 2 + (b.2 - p.2) ^ 2;
     c.1 - p.1, c.2 - p.2, (c.1 - p.1) ^ 2 + (c.2 - p.2) ^ 2]

/-- Math.min on two rationals (kept as an explicit if for computability). -/
def qmin (a b : ℚ) : ℚ := if a ≤ b then a else b

/-- Math.max on two rationals. -/
def qmax (a b : ℚ) : ℚ := if b ≤ a then a else b

/-- Minimum of a list of rationals.  The source seeds the scan with Infinity;
the model seeds it with the head (the scans are only applied to nonempty
lists, where the two coincide). -/
def minList (l : List ℚ) : ℚ := l.foldl qmin (l.headD 0)

/-- Maximum of a list of rationals (source seeds with -Infinity). -/
def maxList (l : List ℚ) : ℚ := l.foldl qmax (l.headD 0)

/-- 2D cross product of a-o and b-o. -/
def cross2 (o a b : Q2) : ℚ :=
  (a.1 - o.1) * (b.2 - o.2) - (a.2 - o.2) * (b.1 - o.1)

/-- p lies strictly inside the triangle (v0, v1, v2): all three edge cross
products are nonzero and have the same sign (this is orientation
independent). -/
def strictlyInside (t : Q2 × Q2 × Q2) (p : Q2) : Prop :=
  (0 < cross2 t.1 t.2.1 p ∧ 0 < cross2 t.2.1 t.2.2 p ∧ 0 < cross2 t.2.2 t.1 p) ∨
    (cross2 t.1 t.2.1 p < 0 ∧ cross2 t.2.1 t.2.2 p < 0 ∧ cross2 t.2.2 t.1 p < 0)

instance (t : Q2 × Q2 × Q2) (p : Q2) : Decidable (strictlyInside t p) := by
  unfold strictlyInside; infer_instance

namespace Mapgen

/-- hasEdge helper: triangle (index triple) contains vertex v. -/
def triHas (t : Nat × Nat × Nat) (v : Nat) : Bool :=
  t.1 == v || t.2.1 == v || t.2.2 == v

/-- hasEdge from mapgen.js: the triangle contains both endpoints. -/
def hasEdge (t : Nat × Nat × Nat) (a b : Nat) : Bool := triHas t a && triHas t b

/-- The three directed edges of a triangle, in source order. -/
def triEdges (t : Nat × Nat × Nat) : List (Nat × Nat) :=
  [(t.1, t.2.1), (t.2.1, t.2.2), (t.2.2, t.1)]

/-- The super-triangle built at the start of mapgen.js delaunay: the bounding
box of the points padded by 1000 on every side; base at the bottom, apex at
the top middle. -/
def superTriangleM (ps : List Q2) : Q2 × Q2 × Q2 :=
  let minX := minList (ps.map Prod.fst) - 1000
  let minY := minList (ps.map Prod.snd) - 1000
  let maxX := maxList (ps.map Prod.fst) + 1000
  let maxY := maxList (ps.map Prod.snd) + 1000
  ((minX, minY), (maxX, minY), ((minX + maxX) / 2, maxY))

/-- Indices of triangles whose circumcircle contains p (the badTriangles
scan). -/
def badIndices (vertices : List Q2) (tris : List (Nat × Nat × Nat)) (p : Q2) :
    List Nat :=
  (List.range tris.length).filter fun j =>
    let t := tris.getD j (0, 0, 0)
    let a := vertices.getD t.1 (0, 0)
    let b := vertices.getD t.2.1 (0, 0)
    let c := vertices.getD t.2.2 (0, 0)
    inCircumcircle p.1 p.2 a.1 a.2 b.1 b.2 c.1 c.2

/-- Boundary edges of the cavity: edges of bad triangles not shared with
another bad triangle, collected in source iteration order. -/
def boundaryPolygon (tris : List (Nat × Nat × Nat)) (bad : List Nat) :
    List (Nat × Nat) :=
  bad.foldl
    (fun acc j =>
      acc ++ (triEdges (tris.getD j (0, 0, 0))).filter fun e =>
        !(bad.any fun k => (k != j) && hasEdge (tris.getD k (0, 0, 0)) e.1 e.2))
    []

/-- One insertion round of the Bowyer-Watson loop: drop the bad triangles
(the source splices their indices in descending order, which removes exactly
that index set) and re-triangulate the cavity boundary against the new
point. -/
def insertStep (vertices : List Q2) (tris : List (Nat × Nat × Nat))
    (pointIdx : Nat) : List (Nat × Nat × Nat) :=
  let p := vertices.getD pointIdx (0, 0)
  let bad := badIndices vertices tris p
  let poly := boundaryPolygon tris bad
  let kept := ((List.range tris.length).filter fun j => !(bad.contains j)).map
    fun j => tris.getD j (0, 0, 0)
  kept ++ poly.map fun e => (e.1, e.2, pointIdx)

/-- Result record of mapgen.js delaunay in the success case. -/
structure DelaunayResult where
  triangles : List (Nat × Nat × Nat)
  vertices : List Q2
deriving DecidableEq

/-- delaunay from mapgen.js.  With fewer than 3 points the source returns a
bare empty array instead of the {triangles, vertices} record; this
InsufficientPoints outcome is the left summand.  Otherwise the points are
inserted one at a time after the three super-triangle vertices (offset 3),
triangles touching the super-triangle are discarded and indices shifted
back. -/
def delaunay (ps : List Q2) : List (Nat × Nat × Nat) ⊕ DelaunayResult :=
  if ps.length < 3 then Sum.inl []
  else
    let st := superTriangleM ps
    let vertices := [st.1, st.2.1, st.2.2] ++ ps
    let tris := (List.range ps.length).foldl
      (fun acc i => insertStep vertices acc (i + 3)) [(0, 1, 2)]
    let keep := tris.filter fun t =>
      decide (3 ≤ t.1) && decide (3 ≤ t.2.1) && decide (3 ≤ t.2.2)
    Sum.inr ⟨keep.map fun t => (t.1 - 3, t.2.1 - 3, t.2.2 - 3), ps⟩

/-- The module-level state read by merge4SidedTiles: the point array, the
per-point Voronoi neighbour lists, and the valid/ineligible tile sets (JS
Sets, modelled as lists queried by membership). -/
structure MergeState where
  points : List Q2
  tileNeighbors : List (List Nat)
  validTiles : List Nat
  ineligibleTiles : List Nat
deriving DecidableEq

/-- getFourSidedTiles: eligible tiles with exactly 4 Voronoi neighbours. -/
def getFourSidedTiles (s : MergeState) : List Nat :=
  (List.range s.points.length).filter fun i =>
    s.validTiles.contains i && !(s.ineligibleTiles.contains i) &&
      (s.tileNeighbors.getD i []).length == 4

/-- The closest-neighbour scan of merge4SidedTiles for one tile: first
strictly-smaller distance wins (Infinity-seeded, so the first neighbour
always loads); distances are compared as squares. -/
def closestNeighborOf (s : MergeState) (tile : Nat) : Option (Nat × ℚ) :=
  (s.tileNeighbors.getD tile []).foldl
    (fun best n =>
      let d := distSq (s.points.getD tile (0, 0)) (s.points.getD n (0, 0))
      match best with
      | none => some (n, d)
      | some (bn, bd) => if d < bd then some (n, d) else some (bn, bd))
    none

/-- closestPairs: each 4-sided tile paired with its nearest neighbour, the
pair sorted ascending. -/
def closestPairs (s : MergeState) : List ((Nat × Nat) × ℚ) :=
  (getFourSidedTiles s).foldl
    (fun acc tile =>
      match closestNeighborOf s tile with
      | none => acc
      | some (n, d) =>
        let pair := if tile < n then (tile, n) else (n, tile)
        acc ++ [(pair, d)])
    []

/-- One uniquePairs update: a JS Map keyed by the sorted pair, keeping the
smaller distance, insertion order preserved. -/
def insertPair (m : List ((Nat × Nat) × ℚ)) (p : (Nat × Nat) × ℚ) :
    List ((Nat × Nat) × ℚ) :=
  if m.any fun q => q.1 = p.1 then
    m.map fun q => if q.1 = p.1 ∧ p.2 < q.2 then (q.1, p.2) else q
  else m ++ [p]

/-- uniquePairs built from closestPairs. -/
def uniquePairs (s : MergeState) : List ((Nat × Nat) × ℚ) :=
  (closestPairs s).foldl insertPair []

/-- The first unique pair containing index i (the merge loop scans the map
in insertion order and breaks at the first hit). -/
def pairFor (keys : List (Nat × Nat)) (i : Nat) : Option (Nat × Nat) :=
  keys.find? fun p => p.1 == i || p.2 == i

/-- Two merge pairs are disjoint: they share no point index. -/
def pairDisj (p q : Nat × Nat) : Prop :=
  p.1 ≠ q.1 ∧ p.1 ≠ q.2 ∧ p.2 ≠ q.1 ∧ p.2 ≠ q.2

instance : DecidableRel pairDisj := fun p q => by
  unfold pairDisj
  infer_instance

/-- The contribution of source index i to the merged point array: the
midpoint when i is the first component of the first pair containing it,
nothing (dropped) when it is only the second component, the original point
when no pair contains it. -/
def mergeStep (s : MergeState) (keys : List (Nat × Nat)) (i : Nat) : Option Q2 :=
  match pairFor keys i with
  | none => some (s.points.getD i (0, 0))
  | some p =>
    if p.1 = i then
      some (midpointQ (s.points.getD p.1 (0, 0)) (s.points.getD p.2 (0, 0)))
    else none

/-- Result of merge4SidedTiles; when merged is false the source returns no
newPoints field and the caller keeps the old array, modelled by returning
the unchanged points. -/
structure MergeResult where
  merged : Bool
  newPoints : List Q2
  mergeLocations : List Nat
deriving DecidableEq

/-- merge4SidedTiles from mapgen.js, as a function of the module state. -/
def merge4SidedTiles (s : MergeState) : MergeResult :=
  let keys := (uniquePairs s).map Prod.fst
  if keys.isEmpty then ⟨false, s.points, []⟩
  else
    ⟨true, (List.range s.points.length).filterMap (mergeStep s keys),
      (List.range s.points.length).filterMap fun i =>
        match pairFor keys i with
        | some p =>
          if p.1 = i then
            some (((List.range i).filterMap (mergeStep s keys)).length)
          else none
        | none => none⟩

/-- Concrete merge state in which tiles 1 and 3 are both 4-sided and share
the same nearest neighbour, point 5. -/
def mergeStateA : MergeState :=
  ⟨[(50, 50), (0, 0), (60, 60), (2, 0), (70, 70), (1, 0), (10, 10), (11, 11),
      (12, 12), (13, 13), (14, 14), (15, 15)],
    [[], [5, 6, 7, 8], [], [5, 9, 10, 11], [], [], [], [], [], [], [], []],
    [1, 3], []⟩

/-- Concrete merge state with a single 4-sided tile (index 1) whose nearest
neighbour is point 5 (spec Scenario D). -/
def mergeStateB : MergeState :=
  ⟨[(50, 50), (0, 0), (60, 60), (2, 0), (70, 70), (1, 0), (10, 10), (11, 11),
      (12, 12), (13, 13), (14, 14), (15, 15)],
    [[], [5, 6, 7, 8], [], [5, 9, 10, 11], [], [], [], [], [], [], [], []],
    [1], []⟩

/-- Concrete merge state mirroring mergeStateA with the shared nearest
neighbour at index 0, below both 4-sided tiles 1 and 3: the sorted pairs
are (0,1) and (0,3), and the merge loop consumes point 0 with the first
pair, leaving the second pair dead. -/
def mergeStateC : MergeState :=
  ⟨[(1, 0), (0, 0), (60, 60), (2, 0), (70, 70), (50, 50), (10, 10), (11, 11),
      (12, 12), (13, 13), (14, 14), (15, 15)],
    [[], [0, 6, 7, 8], [], [0, 9, 10, 11], [], [], [], [], [], [], [], []],
    [1, 3], []⟩

/-- The module state read by one erosion/accretion round of generateMapData
(lines 908-962): points, neighbour lists, the valid and water-only tile sets
and the root (seed) tile. -/
structure ErosionState where
  points : List Q2
  tileNeighbors : List (List Nat)
  validTiles : List Nat
  waterOnlyTiles : List Nat
  rootTile : Nat
deriving DecidableEq

/-- Land tiles having at least one non-land neighbour (the shore scan). -/
def shoreTilesOf (e : ErosionState) (land : List Nat) : List Nat :=
  land.filter fun tile =>
    (e.tileNeighbors.getD tile []).any fun n => !(land.contains n)

/-- The first-minimum scan over a tile list by distance to the root tile
(strictly smaller wins, first occurrence kept; distances compared as
squares). -/
def minByDist (e : ErosionState) (l : List Nat) (init : Nat) : Nat :=
  l.foldl
    (fun best t =>
      if distSq (e.points.getD e.rootTile (0, 0)) (e.points.getD t (0, 0)) <
          distSq (e.points.getD e.rootTile (0, 0)) (e.points.getD best (0, 0))
      then t else best)
    init

/-- The first-maximum scan by distance to the root tile (strictly larger
wins). -/
def maxByDist (e : ErosionState) (l : List Nat) (init : Nat) : Nat :=
  l.foldl
    (fun best t =>
      if distSq (e.points.getD e.rootTile (0, 0)) (e.points.getD best (0, 0)) <
          distSq (e.points.getD e.rootTile (0, 0)) (e.points.getD t (0, 0))
      then t else best)
    init

/-- The shore tile closest to the seed (the erosion target). -/
def closestShoreOf (e : ErosionState) (land : List Nat) : Nat :=
  minByDist e (shoreTilesOf e land) ((shoreTilesOf e land).headD 0)

/-- The shore tile (of the depleted land set) farthest from the seed. -/
def furthestShoreOf (e : ErosionState) (land1 : List Nat) : Nat :=
  maxByDist e (shoreTilesOf e land1) ((shoreTilesOf e land1).headD 0)

/-- Valid non-land, non-water-only neighbours of the furthest shore tile —
the accretion candidates. -/
def nonLandNeighborsOf (e : ErosionState) (land1 : List Nat) : List Nat :=
  (e.tileNeighbors.getD (furthestShoreOf e land1) []).filter fun n =>
    !(land1.contains n) && e.validTiles.contains n &&
      !(e.waterOnlyTiles.contains n)

/-- JS Set.add: append if absent (keeps original position when present). -/
def addSet (l : List Nat) (x : Nat) : List Nat :=
  if l.contains x then l else l ++ [x]

/-- Result of one erosion round: the new land list, whether the round hit a
break of the surrounding loop, and the accreted tile if any. -/
structure ErosionRoundResult where
  land : List Nat
  stop : Bool
  added : Option Nat
deriving DecidableEq

/-- One erosion/accretion round of generateMapData, as a function of the
module state and the current land set; rnd is the Math.random draw used to
pick among the accretion candidates (index modelled as the clamped floor,
which coincides with the source for draws in [0,1)). -/
def erosionRound (e : ErosionState) (land : List Nat) (rnd : ℚ) :
    ErosionRoundResult :=
  let shore := shoreTilesOf e land
  if shore.isEmpty then ⟨land, true, none⟩
  else
    let c := closestShoreOf e land
    let land1 := land.erase c
    let newShore := shoreTilesOf e land1
    if newShore.isEmpty then ⟨addSet land1 c, true, none⟩
    else
      let nonLand := nonLandNeighborsOf e land1
      if nonLand.isEmpty then ⟨land1, false, none⟩
      else
        let k := (Int.toNat ⌊rnd * nonLand.length⌋).min (nonLand.length - 1)
        let a := nonLand.getD k 0
        ⟨addSet land1 a, false, some a⟩

/-- Concrete erosion state: root tile 0 at the origin; tiles 1 and 3 are
land neighbours of 0; tiles 4 and 5 are valid but water-only neighbours of 1
and 3 respectively; tile 3 is far from the root. -/
def erosionStateA : ErosionState :=
  ⟨[(0, 0), (1, 0), (9, 9), (5, 0), (2, 0), (6, 0)],
    [[1, 3], [0, 4], [], [0, 5], [1], [3]],
    [0, 1, 3, 4, 5], [4, 5], 0⟩

/-- bounds.x of the module-level bounding box (width 1200, height 800,
margin 20). -/
def boundsX : ℚ := 20

/-- bounds.y. -/
def boundsY : ℚ := 20

/-- bounds.width = 1200 - 2*20. -/
def boundsW : ℚ := 1160

/-- bounds.height = 800 - 2*20. -/
def boundsH : ℚ := 760

/-- The square of minDistance = 0.8 * sqrt(width*height/numPoints); all
comparisons against minDistance in the source compare Euclidean distances,
so they are modelled on squares. -/
def minDistSq (n : ℕ) : ℚ := (16 / 25) * (boundsW * boundsH) / (n : ℚ)

/-- The square of cellSize = minDistance / sqrt 2. -/
def cellSq (n : ℕ) : ℚ := minDistSq n / 2

/-- Largest natural k with k^2 <= q (the floor of the real square root of a
nonnegative rational, used to express floor(a / cellSize) as
floor(sqrt(a^2 / cellSize^2)) without leaving the rationals). -/
def ratSqrtFloor (q : ℚ) : ℕ :=
  let k0 := Nat.sqrt (⌊q⌋).toNat
  if ((k0 + 1 : ℕ) : ℚ) ^ 2 ≤ q then k0 + 1 else k0

/-- Smallest natural k with q <= k^2 (the ceiling of the real square root of
a nonnegative rational). -/
def ratSqrtCeil (q : ℚ) : ℕ :=
  let f := ratSqrtFloor q
  if ((f : ℕ) : ℚ) ^ 2 = q then f else f + 1

/-- Grid column of x: floor((x - bounds.x) / cellSize). -/
def cellCol (n : ℕ) (x : ℚ) : ℕ := ratSqrtFloor ((x - boundsX) ^ 2 / cellSq n)

/-- Grid row of y: floor((y - bounds.y) / cellSize). -/
def cellRow (n : ℕ) (y : ℚ) : ℕ := ratSqrtFloor ((y - boundsY) ^ 2 / cellSq n)

/-- gridWidth = ceil(bounds.width / cellSize). -/
def gridW (n : ℕ) : ℕ := ratSqrtCeil (boundsW ^ 2 / cellSq n)

/-- gridHeight = ceil(bounds.height / cellSize). -/
def gridH (n : ℕ) : ℕ := ratSqrtCeil (boundsH ^ 2 / cellSq n)

/-- Flattened grid index row * gridWidth + col. -/
def gridIdx (n : ℕ) (x y : ℚ) : ℕ := cellRow n y * gridW n + cellCol n x

/-- Inclusive index range, empty when hi < lo (the clamped 5x5 scan window
of isValid). -/
def scanRange (lo hi : ℕ) : List ℕ := List.range' lo (hi + 1 - lo)

/-- A point lies inside the bounding rectangle in the sense of the isValid
bounds gate: x in [bounds.x, bounds.x + width), y likewise. -/
def inRect (p : Q2) : Prop :=
  boundsX ≤ p.1 ∧ p.1 < boundsX + boundsW ∧ boundsY ≤ p.2 ∧ p.2 < boundsY + boundsH

instance (p : Q2) : Decidable (inRect p) := by
  unfold inRect
  infer_instance

/-- isValid from poissonDiscSampling: inside the bounding rectangle and at
distance at least minDistance from every grid occupant in the clamped
5x5 cell window around the candidate (distance compared on squares; a
candidate at exactly minDistance passes, as in the source strict
comparison). -/
def isValidPoint (n : ℕ) (grid : ℕ → Option Q2) (x y : ℚ) : Bool :=
  if x < boundsX ∨ boundsX + boundsW ≤ x ∨ y < boundsY ∨ boundsY + boundsH ≤ y
  then false
  else
    let col := cellCol n x
    let row := cellRow n y
    (scanRange (row - 2) (Nat.min (gridH n - 1) (row + 2))).all fun r =>
      (scanRange (col - 2) (Nat.min (gridW n - 1) (col + 2))).all fun c =>
        match grid (r * gridW n + c) with
        | none => true
        | some other => decide (minDistSq n ≤ distSq (x, y) other)

/-- The 30-attempt candidate loop around one active point.  The candidate
positions produced by the source's angle/radius trigonometry are supplied by
the oracle stream cand (cosine and sine of a random angle are not rational);
every property claimed of the sampler is independent of the candidate
values because isValid gates every acceptance.  Returns the accepted
candidate, if any, and the new stream position. -/
def tryCands (n : ℕ) (grid : ℕ → Option Q2) (cand : ℕ → Q2) :
    ℕ → ℕ → Option Q2 × ℕ
  | 0, k => (none, k)
  | b + 1, k =>
    let c := cand k
    if isValidPoint n grid c.1 c.2 then (some c, k + 1)
    else tryCands n grid cand b (k + 1)

/-- State of the poissonDiscSampling while loop: accepted points, active
list, occupancy grid (the source's array of cells holding at most one point
each, modelled as a function), and the positions in the candidate and
random-draw streams. -/
structure PDState where
  pts : List Q2
  act : List Q2
  grid : ℕ → Option Q2
  ck : ℕ
  rk : ℕ

/-- The while loop of poissonDiscSampling: while the active list is
nonempty and fewer than n points are placed, draw a random active index,
try up to 30 candidates around it (candidates via the oracle stream), on
success push the point everywhere, on failure retire the active point.
The random active index is the clamped floor of draw*length, which
coincides with the source for draws in [0,1). -/
def pdLoop (n : ℕ) (rand : ℕ → ℚ) (cand : ℕ → Q2) (s : PDState) : List Q2 :=
  if h : s.act.length = 0 ∨ n ≤ s.pts.length then s.pts
  else
    let len := s.act.length
    let idx := (Int.toNat ⌊rand s.rk * (len : ℚ)⌋).min (len - 1)
    match tryCands n s.grid cand 30 s.ck with
    | (some c, ck2) =>
      pdLoop n rand cand
        ⟨s.pts ++ [c], s.act ++ [c],
          fun i => if i = gridIdx n c.1 c.2 then some c else s.grid i, ck2,
          s.rk + 1⟩
    | (none, ck2) =>
      pdLoop n rand cand ⟨s.pts, s.act.eraseIdx idx, s.grid, ck2, s.rk + 1⟩
termination_by 2 * (n - s.pts.length) + s.act.length
decreasing_by
  · simp only [List.length_append, List.length_singleton]
    omega
  · rw [List.length_eraseIdx]
    have hlen0 : 0 < s.act.length := Nat.pos_of_ne_zero fun h0 => h (Or.inl h0)
    have hidx : (Int.toNat ⌊rand s.rk * (s.act.length : ℚ)⌋).min
        (s.act.length - 1) < s.act.length :=
      Nat.lt_of_le_of_lt (Nat.min_le_right _ _) (Nat.sub_lt hlen0 Nat.one_pos)
    split
    · omega
    · next hc => exact absurd hidx hc

/-- poissonDiscSampling from mapgen.js: a random start point inside the
bounds (two draws from the random stream), then the while loop.  The
trigonometric candidate displacements are supplied by the oracle stream
cand, the remaining Math.random draws by rand. -/
def poissonDiscSampling (n : ℕ) (rand : ℕ → ℚ) (cand : ℕ → Q2) : List Q2 :=
  let startX := boundsX + rand 0 * boundsW
  let startY := boundsY + rand 1 * boundsH
  let start : Q2 := (startX, startY)
  pdLoop n rand cand
    ⟨[start], [start],
      fun i => if i = gridIdx n startX startY then some start else none, 0, 2⟩

/-- The loop invariant of the sampler: at most n points once n is positive,
every accepted point inside the rectangle, pairwise squared distances at
least minDistance^2, and the grid holds exactly the accepted points, each
registered in its own cell. -/
def PDInv (n : ℕ) (s : PDState) : Prop :=
  s.pts.length ≤ n ∧
    (∀ p ∈ s.pts, inRect p) ∧
    s.pts.Pairwise (fun p q => minDistSq n ≤ distSq p q) ∧
    (∀ p ∈ s.pts, s.grid (gridIdx n p.1 p.2) = some p) ∧
    (∀ i p, s.grid i = some p → p ∈ s.pts ∧ i = gridIdx n p.1 p.2)

end Mapgen

namespace DelGen

/-- dx of the bounding box in the bowyerWatson super-triangle computation. -/
def dxBW (ps : List Q2) : ℚ :=
  maxList (ps.map Prod.fst) - minList (ps.map Prod.fst)

/-- dy of the bounding box. -/
def dyBW (ps : List Q2) : ℚ :=
  maxList (ps.map Prod.snd) - minList (ps.map Prod.snd)

/-- deltaMax = max(dx, dy). -/
def deltaMaxBW (ps : List Q2) : ℚ := qmax (dxBW ps) (dyBW ps)

/-- The super-triangle of the delaunayGenerator bowyerWatson: centred on the
bounding box midpoint, with half-width 20*deltaMax and apex 20*deltaMax
above. -/
def superTriangleBW (ps : List Q2) : Q2 × Q2 × Q2 :=
  let midx := (minList (ps.map Prod.fst) + maxList (ps.map Prod.fst)) / 2
  let midy := (minList (ps.map Prod.snd) + maxList (ps.map Prod.snd)) / 2
  let d := deltaMaxBW ps
  ((midx - 20 * d, midy - d), (midx, midy + 20 * d), (midx + 20 * d, midy - d))

/-- Bad-triangle indices for one bowyerWatson insertion. -/
def badIndicesBW (allPoints : List Q2) (tris : List (Nat × Nat × Nat))
    (p : Q2) : List Nat :=
  (List.range tris.length).filter fun j =>
    let t := tris.getD j (0, 0, 0)
    inCircumcircleP p (allPoints.getD t.1 (0, 0)) (allPoints.getD t.2.1 (0, 0))
      (allPoints.getD t.2.2 (0, 0))

/-- Cavity boundary edges for one bowyerWatson insertion (edges of bad
triangles not shared with a different bad triangle). -/
def boundaryPolygonBW (tris : List (Nat × Nat × Nat)) (bad : List Nat) :
    List (Nat × Nat) :=
  bad.foldl
    (fun acc j =>
      acc ++ (Mapgen.triEdges (tris.getD j (0, 0, 0))).filter fun e =>
        !(bad.any fun k =>
          (k != j) && Mapgen.hasEdge (tris.getD k (0, 0, 0)) e.1 e.2))
    []

/-- One bowyerWatson insertion round; the source removes bad triangles by
indexOf/splice, which deletes exactly the bad index set. -/
def insertStepBW (allPoints : List Q2) (tris : List (Nat × Nat × Nat))
    (pointIdx : Nat) : List (Nat × Nat × Nat) :=
  let p := allPoints.getD pointIdx (0, 0)
  let bad := badIndicesBW allPoints tris p
  let poly := boundaryPolygonBW tris bad
  let kept := ((List.range tris.length).filter fun j => !(bad.contains j)).map
    fun j => tris.getD j (0, 0, 0)
  kept ++ poly.map fun e => (e.1, e.2, pointIdx)

/-- bowyerWatson from the delaunayGenerator source: fewer than 3 points
returns the empty list; otherwise the super-triangle vertices are appended
after the points (indices n, n+1, n+2), points are inserted one at a time,
and triangles sharing a super-triangle vertex are discarded. -/
def bowyerWatson (ps : List Q2) : List (Nat × Nat × Nat) :=
  if ps.length < 3 then []
  else
    let st := superTriangleBW ps
    let allPoints := ps ++ [st.1, st.2.1, st.2.2]
    let tris := (List.range ps.length).foldl
      (fun acc i => insertStepBW allPoints acc i)
      [(ps.length, ps.length + 1, ps.length + 2)]
    tris.filter fun t =>
      decide (t.1 < ps.length) && decide (t.2.1 < ps.length) &&
        decide (t.2.2 < ps.length)

end DelGen

namespace GameMap

/-- Game entity ids are the strings produced by generateId. -/
abbrev ID := String

/-- Resource from src/models/types.ts. -/
inductive Resource where
  | ore
  | sheep
  | wood
  | brick
  | wheat
  | desert
deriving DecidableEq

/-- Tile from src/models/types.ts, restricted to the fields read by the
validator, generateMap and the generator pipeline (polygonPoints and other
render-only fields are never read there and are omitted).  shape is the
numeric TileShape (HEXAGON = 6).  isBoundary is false where a generator
leaves the property undefined, matching its use under JS truthiness. -/
structure Tile where
  id : ID
  shape : ℤ
  resource : Resource
  diceNumber : Option ℤ
  edges : List ID
  nodes : List ID
  robberPresent : Bool
  isBoundary : Bool
deriving DecidableEq

/-- Node from src/models/types.ts, restricted to the fields read by the
validator, the generator pipeline and the claims (location and occupant
are never read there and are omitted); isBoundary is false where a
generator leaves the property undefined. -/
structure Node where
  id : ID
  tiles : List ID
  isBoundary : Bool
deriving DecidableEq

/-- Edge from src/models/types.ts; tileLeft and tileRight are null (none)
for a missing side. -/
structure Edge where
  id : ID
  nodeA : ID
  nodeB : ID
  tileLeft : Option ID
  tileRight : Option ID
  isBoundary : Bool
deriving DecidableEq

/-- MapData from src/models/types.ts. -/
structure MapData where
  tiles : List Tile
  nodes : List Node
  edges : List Edge
deriving DecidableEq

/-- Lookup in a JS Map built as new Map(list.map(x => [key(x), x])): the
Map constructor lets later entries overwrite earlier ones, so the lookup
returns the last element of the list with the given key. -/
def jsMapGet (key : α → ID) (l : List α) (k : ID) : Option α :=
  l.reverse.find? fun x => decide (key x = k)

/-- Membership test of the same JS Map. -/
def jsMapHas (key : α → ID) (l : List α) (k : ID) : Bool :=
  (jsMapGet key l k).isSome

/-- One entry of the errors array of validateMap; each constructor stands
for one push site in src/dist/map/validator.js, carrying the interpolated
ids or counts of its message. -/
inductive VError where
  | dupTileIds
  | dupNodeIds
  | dupEdgeIds
  | nodeTileCount (node : ID)
  | nodeMissingTile (node tile : ID)
  | tileMissingNode (tile node : ID)
  | tileNoBackref (tile node : ID)
  | tileMissingEdge (tile edge : ID)
  | tileShapeNodes (tile : ID)
  | tileShapeEdges (tile : ID)
  | boundaryTileNodes (tile : ID)
  | boundaryTileEdges (tile : ID)
  | tileBadShape (tile : ID)
  | edgeMissingNodeA (edge node : ID)
  | edgeMissingNodeB (edge node : ID)
  | edgeMissingTileLeft (edge tile : ID)
  | edgeMissingTileRight (edge tile : ID)
  | edgeSameNodes (edge : ID)
  | notConnected (visited total : ℕ)
  | dupEdge (nodeA nodeB : ID)
deriving DecidableEq

/-- Check 1 of validateMap: unique ids, via the size of the JS Set of the
mapped ids (the length of the deduplicated list). -/
def dupIdErrors (m : MapData) : List VError :=
  (if (m.tiles.map Tile.id).dedup.length ≠ m.tiles.length then
    [VError.dupTileIds] else []) ++
  (if (m.nodes.map Node.id).dedup.length ≠ m.nodes.length then
    [VError.dupNodeIds] else []) ++
  (if (m.edges.map Edge.id).dedup.length ≠ m.edges.length then
    [VError.dupEdgeIds] else [])

/-- Check 2 of validateMap: the vertex-degree bound 1..3 for every node,
and existence of every tile a node references. -/
def nodeErrors (m : MapData) : List VError :=
  m.nodes.foldl
    (fun acc node =>
      acc ++
        (if node.tiles.length < 1 ∨ node.tiles.length > 3 then
          [VError.nodeTileCount node.id]
        else []) ++
        node.tiles.foldl
          (fun acc2 tileId =>
            acc2 ++
              if jsMapHas Tile.id m.tiles tileId then []
              else [VError.nodeMissingTile node.id tileId])
          [])
    []

/-- Check 3 of validateMap: tile references to nodes (with back-reference)
and edges, the shape checks for interior and boundary tiles, and the
minimum polygon size. -/
def tileErrors (m : MapData) : List VError :=
  m.tiles.foldl
    (fun acc tile =>
      acc ++
        tile.nodes.foldl
          (fun acc2 nodeId =>
            acc2 ++
              match jsMapGet Node.id m.nodes nodeId with
              | none => [VError.tileMissingNode tile.id nodeId]
              | some node =>
                if tile.id ∈ node.tiles then []
                else [VError.tileNoBackref tile.id nodeId])
          [] ++
        tile.edges.foldl
          (fun acc2 edgeId =>
            acc2 ++
              if jsMapHas Edge.id m.edges edgeId then []
              else [VError.tileMissingEdge tile.id edgeId])
          [] ++
        (if !tile.isBoundary then
          (if (tile.nodes.length : ℤ) ≠ tile.shape then
            [VError.tileShapeNodes tile.id] else []) ++
          (if (tile.edges.length : ℤ) ≠ tile.shape then
            [VError.tileShapeEdges tile.id] else [])
        else
          (if tile.nodes.length < 3 then
            [VError.boundaryTileNodes tile.id] else []) ++
          (if tile.edges.length < 3 then
            [VError.boundaryTileEdges tile.id] else [])) ++
        (if tile.shape < 3 then [VError.tileBadShape tile.id] else []))
    []

/-- Check 4 of validateMap: edge references.  The tileLeft/tileRight
checks sit under JS truthiness, so null and the empty string are skipped. -/
def edgeErrors (m : MapData) : List VError :=
  m.edges.foldl
    (fun acc edge =>
      acc ++
        (if jsMapHas Node.id m.nodes edge.nodeA then []
          else [VError.edgeMissingNodeA edge.id edge.nodeA]) ++
        (if jsMapHas Node.id m.nodes edge.nodeB then []
          else [VError.edgeMissingNodeB edge.id edge.nodeB]) ++
        (match edge.tileLeft with
          | none => []
          | some t =>
            if !t.isEmpty && !jsMapHas Tile.id m.tiles t then
              [VError.edgeMissingTileLeft edge.id t]
            else []) ++
        (match edge.tileRight with
          | none => []
          | some t =>
            if !t.isEmpty && !jsMapHas Tile.id m.tiles t then
              [VError.edgeMissingTileRight edge.id t]
            else []) ++
        (if edge.nodeA = edge.nodeB then [VError.edgeSameNodes edge.id]
          else []))
    []

/-- The adjacent-tile ids collected for the current BFS tile: for each
node id of the tile that resolves in the node map, every tile id of that
node other than the current one.  The source gathers them in a JS Set
before iterating; folding the raw list below with the visited gate gives
the same visited set and queue, because every enqueue immediately marks
the id visited, so a repeated id in the raw list hits the gate. -/
def adjOf (nodeM : ID → Option Node) (cur : Tile) (currentId : ID) :
    List ID :=
  cur.nodes.foldl
    (fun acc nodeId =>
      match nodeM nodeId with
      | none => acc
      | some node => acc ++ node.tiles.filter fun t => decide (t ≠ currentId))
    []

/-- One enqueue pass of the BFS: ids not yet visited are appended to both
the visited set and the queue. -/
def bfsFold (visited queue ts : List ID) : List ID × List ID :=
  ts.foldl
    (fun vq t => if t ∈ vq.1 then vq else (vq.1 ++ [t], vq.2 ++ [t]))
    (visited, queue)

/-- The connectivity BFS of validateMap (check 5).  A queued id missing
from the tile map makes the source read .nodes of undefined and throw a
TypeError, modelled as none.  The fuel argument only bounds the number of
iterations: bfsLoop_stable proves every fuel past the threshold used in
connectivityErrors gives the same result, so the fuel-out branch is
unreachable there and the source while loop terminates accordingly. -/
def bfsLoop (tileM : ID → Option Tile) (nodeM : ID → Option Node) :
    ℕ → List ID → List ID → Option (List ID)
  | _, [], visited => some visited
  | 0, _ :: _, _ => none
  | fuel + 1, currentId :: queue, visited =>
    match tileM currentId with
    | none => none
    | some cur =>
      let vq := bfsFold visited queue (adjOf nodeM cur currentId)
      bfsLoop tileM nodeM fuel vq.2 vq.1

/-- Check 5 of validateMap: BFS from the first tile and compare the
visited count with the tile count; none models the TypeError thrown when
the BFS dereferences a missing tile. -/
def connectivityErrors (m : MapData) : Option (List VError) :=
  match m.tiles with
  | [] => some []
  | t0 :: _ =>
    match bfsLoop (jsMapGet Tile.id m.tiles) (jsMapGet Node.id m.nodes)
        (1 + m.tiles.length + (m.nodes.map fun n => n.tiles.length).sum)
        [t0.id] [t0.id] with
    | none => none
    | some visited =>
      some
        (if visited.length ≠ m.tiles.length then
          [VError.notConnected visited.length m.tiles.length]
        else [])

/-- Check 6 of validateMap: duplicate undirected edges, tracked through a
growing set of nodeA-nodeB strings exactly as in the source. -/
def dupEdgeErrors (m : MapData) : List VError :=
  (m.edges.foldl
    (fun (acc : List VError × List String) edge =>
      let pair1 := edge.nodeA ++ "-" ++ edge.nodeB
      let pair2 := edge.nodeB ++ "-" ++ edge.nodeA
      ((if pair1 ∈ acc.2 ∨ pair2 ∈ acc.2 then
          acc.1 ++ [VError.dupEdge edge.nodeA edge.nodeB]
        else acc.1),
        acc.2 ++ [pair1]))
    ([], [])).1

/-- validateMap from src/dist/map/validator.js: the accumulated error list
in source order, or none when the connectivity BFS throws (checks 1 to 4
run before the BFS, but their pushes are discarded by the escaping
exception, so the Option short-circuit is extensionally the source).  The
source result is valid exactly when the list is empty. -/
def validateMap (m : MapData) : Option (List VError) :=
  match connectivityErrors m with
  | none => none
  | some conn =>
    some (dupIdErrors m ++ nodeErrors m ++ tileErrors m ++ edgeErrors m ++
      conn ++ dupEdgeErrors m)

/-- The two ways validateMapOrThrow can throw: the Error carrying the
joined validation messages, or the TypeError escaping the connectivity
walk. -/
inductive GenException where
  | typeError
  | validationFailed (errors : List VError)
deriving DecidableEq

/-- validateMapOrThrow from src/dist/map/validator.js: throws exactly when
the map does not validate. -/
def validateMapOrThrow (m : MapData) : Except GenException Unit :=
  match validateMap m with
  | none => Except.error GenException.typeError
  | some errs =>
    if errs.isEmpty then Except.ok ()
    else Except.error (GenException.validationFailed errs)

/-- options.mapType; the unknown constructor carries any other string and
hits the switch default of generateMap. -/
inductive MapType where
  | standard
  | expandedHex
  | expandedDelaunay
  | unknown (s : String)
deriving DecidableEq

/-- options.seed: an optional string-or-number seed, passed through to the
generators untouched by generateMap. -/
abbrev Seed := Option (String ⊕ ℤ)

/-- The fields of GameOptions read by generateMap. -/
structure GameOptions where
  mapType : MapType
  expandedMapSize : Option ℤ
  delaunayTileCount : Option ℤ
  seed : Seed

/-- JS x || 30 for an optional numeric option: undefined (none) and 0 are
falsy and give 30. -/
def orElse30 : Option ℤ → ℤ
  | none => 30
  | some v => if v = 0 then 30 else v

/-- The parameter object generateMap passes to generateDelaunayMap. -/
structure DelaunayParams where
  seed : Seed
  targetTileCount : ℤ
  irregularity : ℚ
  boundingRadius : ℚ
  smoothingIters : ℤ

/-- The three generators generateMap dispatches to.  generateMap treats
their outputs as opaque map data, so they enter the model as parameters
and every theorem about generateMap below holds for all generator
behaviours. -/
structure Generators where
  generateStandardCatanMap : Seed → MapData
  generateExpandedHexMap : ℤ → Seed → MapData
  generateDelaunayMap : DelaunayParams → MapData

/-- What generateMap surfaces to its caller on failure: the
switch-default unknown-map-type Error, or a validation exception. -/
inductive GenError where
  | unknownMapType (s : String)
  | exc (e : GenException)
deriving DecidableEq

/-- The try/catch around validateMapOrThrow in generateMap: on a throw,
the expanded-delaunay type falls back once to generateExpandedHexMap with
delaunayTileCount or 30 and the same seed and re-validates; every other
type rethrows. -/
def afterValidate (g : Generators) (o : GameOptions) (mapData : MapData) :
    Except GenError MapData :=
  match validateMapOrThrow mapData with
  | Except.ok _ => Except.ok mapData
  | Except.error e =>
    if o.mapType = MapType.expandedDelaunay then
      let fb := g.generateExpandedHexMap (orElse30 o.delaunayTileCount) o.seed
      match validateMapOrThrow fb with
      | Except.ok _ => Except.ok fb
      | Except.error e2 => Except.error (GenError.exc e2)
    else Except.error (GenError.exc e)

/-- generateMap from src/unnamed/part_006 (the map index module): dispatch
on mapType, validate, fall back once for expanded-delaunay, surface
failures as errors. -/
def generateMap (g : Generators) (o : GameOptions) : Except GenError MapData :=
  match o.mapType with
  | MapType.unknown s => Except.error (GenError.unknownMapType s)
  | MapType.standard => afterValidate g o (g.generateStandardCatanMap o.seed)
  | MapType.expandedHex =>
    afterValidate g o (g.generateExpandedHexMap (orElse30 o.expandedMapSize) o.seed)
  | MapType.expandedDelaunay =>
    afterValidate g o
      (g.generateDelaunayMap ⟨o.seed, orElse30 o.delaunayTileCount, 3 / 10, 300, 2⟩)

/-- The empty map: no tiles, nodes or edges; every check passes on it. -/
def mzero : MapData := ⟨[], [], []⟩

/-- A map with a single node listing no tiles: check 2 rejects it. -/
def mbad : MapData := ⟨[], [⟨"n1", [], false⟩], []⟩

/-- Concrete generators for evaluating generateMap: the delaunay generator
returns the invalid map, both hex generators the empty map. -/
def gens0 : Generators := ⟨fun _ => mzero, fun _ _ => mzero, fun _ => mbad⟩

/-- Concrete options selecting the expanded-delaunay path. -/
def opts0 : GameOptions := ⟨MapType.expandedDelaunay, none, none, none⟩

end GameMap

namespace HexGen

/-- Exact coordinates of the hex generator: every coordinate it computes
is a + b * sqrt 3 with integers a and b, represented as the pair (a, b).
The source computes the same values in floating point; for the magnitudes
reachable here the float is within 1e-10 of the exact value while the
exact values keep a distance above 1e-2 from every rounding boundary used
below, so the rounded keys agree. -/
abbrev Z3 := ℤ × ℤ

/-- A point: x and y coordinate, each an exact a + b * sqrt 3. -/
abbrev Pt := Z3 × Z3

/-- Fuel-driven integer square root (Newton-free digit recursion); the
fuel n always suffices because the recursion halves the bit length. -/
def isqrtGo : ℕ → ℕ → ℕ
  | 0, _ => 0
  | fuel + 1, n =>
    if n < 2 then n
    else
      let r := 2 * isqrtGo fuel (n / 4)
      if (r + 1) ^ 2 ≤ n then r + 1 else r

/-- Integer square root: the floor of the real square root (isqrt_spec). -/
def isqrt (n : ℕ) : ℕ := isqrtGo n n

/-- The walk directions of hexRing from src/core/utils.ts. -/
def hexRingDirs : List (ℤ × ℤ) := [(-1,1),(-1,0),(0,-1),(1,-1),(1,0),(0,1)]

/-- hexRing from src/core/utils.ts: radius 0 returns the center; otherwise
start at (q + radius, r - radius) and push-then-step radius times along
each of the six directions.  Note the walk orbits the hex one step below
the center: the emitted ring is centered on (q, r - radius), so rings of
different radii overlap (hexRing center 1 contains the center itself). -/
def hexRing (center : ℤ × ℤ) (radius : ℕ) : List (ℤ × ℤ) :=
  if radius = 0 then [center]
  else
    (hexRingDirs.foldl
      (fun (st : List (ℤ × ℤ) × (ℤ × ℤ)) dir =>
        (List.range radius).foldl
          (fun st2 _ => (st2.1 ++ [st2.2], (st2.2.1 + dir.1, st2.2.2 + dir.2)))
          st)
      ([], (center.1 + radius, center.2 - radius))).1

/-- hexSpiral from src/core/utils.ts: the center followed by the rings of
radii 1 to radius. -/
def hexSpiral (center : ℤ × ℤ) (radius : ℕ) : List (ℤ × ℤ) :=
  center :: (List.range radius).flatMap (fun k => hexRing center (k + 1))

/-- hexToPixel with size 50: x = 50 * (3/2 q) = 75 q and
y = 50 * (sqrt 3 / 2 q + sqrt 3 r) = 25 (q + 2 r) * sqrt 3. -/
def hexToPixelZ (h : ℤ × ℤ) : Pt :=
  ((75 * h.1, 0), (0, 25 * (h.1 + 2 * h.2)))

/-- hexCorners with size 50: the six offsets 50 * (cos t, sin t) at
t = 60 deg * i - 30 deg, which are (+-25 sqrt 3, +-25) and (0, +-50),
added to the center. -/
def hexCornersZ (c : Pt) : List Pt :=
  [ ((c.1.1, c.1.2 + 25), (c.2.1 - 25, c.2.2)),
    ((c.1.1, c.1.2 + 25), (c.2.1 + 25, c.2.2)),
    ((c.1.1, c.1.2), (c.2.1 + 50, c.2.2)),
    ((c.1.1, c.1.2 - 25), (c.2.1 + 25, c.2.2)),
    ((c.1.1, c.1.2 - 25), (c.2.1 - 25, c.2.2)),
    ((c.1.1, c.1.2), (c.2.1 - 50, c.2.2)) ]

/-- The floor of 2 d sqrt 3: for d >= 0 it is the integer square root of
12 d^2; for d < 0 the value is irrational, so the floor is one below the
negated floor of the absolute value. -/
def floor2Sqrt3 (d : ℤ) : ℤ :=
  if 0 ≤ d then (isqrt (12 * d.toNat ^ 2) : ℤ)
  else -(isqrt (12 * (-d).toNat ^ 2) : ℤ) - 1

/-- The nearest integer to d sqrt 3 (never a tie, d sqrt 3 being
irrational for d /= 0): floor ((floor (2 d sqrt 3) + 1) / 2). -/
def roundSqrt3 (d : ℤ) : ℤ := Int.fdiv (floor2Sqrt3 d + 1) 2

/-- The toFixed(1) component of the node key for the exact coordinate
a + b sqrt 3: the number of tenths, rounded to nearest. -/
def key10 (v : Z3) : ℤ := 10 * v.1 + roundSqrt3 (10 * v.2)

/-- The node deduplication key x.toFixed(1) + "," + y.toFixed(1) of
getOrCreateNode, as the pair of rounded tenths (the string encoding of
two fixed-point decimals is injective, so the pair is a faithful key). -/
def nodeKeyZ (p : Pt) : ℤ × ℤ := (key10 p.1, key10 p.2)

/-- The radius loop of generateRegularHexMap: r runs from 0 to 10, radius
keeps the last r with 1 + 3 r (r+1) <= targetTileCount, and the loop
breaks at the first r exceeding the target. -/
def radiusGo (target : ℤ) : ℕ → ℕ → ℕ → ℕ
  | 0, _, cur => cur
  | fuel + 1, r, cur =>
    if (1 + 3 * (r : ℤ) * ((r : ℤ) + 1)) ≤ target then
      radiusGo target fuel (r + 1) r
    else cur

/-- The radius derived from params.targetTileCount: the default 2 when the
count is absent or 0 (falsy), otherwise the loop above over r = 0..10. -/
def radiusOf : Option ℤ → ℕ
  | none => 2
  | some v => if v = 0 then 2 else radiusGo v 11 0 2

/-- The per-hex record pushed onto hexTiles by generateRegularHexMap. -/
structure HexTile where
  hex : ℤ × ℤ
  center : Pt
  corners : List Pt
  id : String

/-- A value of the nodeMap: the corner position and the node id. -/
structure NodeEntry where
  position : Pt
  nodeId : String

/-- The mutable state of generateRegularHexMap: the nodeMap keyed by
rounded position, the edgeMap keyed by nodeA:nodeB id pairs, and the
position in the generateId supply (the source draws ids from Math.random;
the supply enters as the stream parameter ids applied at this counter). -/
structure GenState where
  nodeMap : List ((ℤ × ℤ) × NodeEntry)
  edgeMap : List ((String × String) × String)
  counter : ℕ

/-- getOrCreateNode: return the node id stored under the rounded key, or
create a fresh node at the next id. -/
def getOrCreateNode (ids : ℕ → String) (st : GenState) (p : Pt) :
    String × GenState :=
  let key := nodeKeyZ p
  match st.nodeMap.find? (fun e => e.1 = key) with
  | some e => (e.2.nodeId, st)
  | none =>
    let nodeId := ids st.counter
    (nodeId, ⟨st.nodeMap ++ [(key, ⟨p, nodeId⟩)], st.edgeMap, st.counter + 1⟩)

/-- getOrCreateEdge: look the undirected id pair up in both orientations,
else create a fresh edge id under the (a, b) key. -/
def getOrCreateEdge (ids : ℕ → String) (st : GenState) (a b : String) :
    String × GenState :=
  match st.edgeMap.find? (fun e => e.1 = (a, b)) with
  | some e => (e.2, st)
  | none =>
    match st.edgeMap.find? (fun e => e.1 = (b, a)) with
    | some e => (e.2, st)
    | none =>
      let edgeId := ids st.counter
      (edgeId, ⟨st.nodeMap, st.edgeMap ++ [((a, b), edgeId)], st.counter + 1⟩)

/-- The hexTiles loop: per spiral coordinate the pixel center, the six
corners and a fresh tile id. -/
def mkHexTiles (ids : ℕ → String) (coords : List (ℤ × ℤ)) :
    List HexTile × ℕ :=
  coords.foldl
    (fun (acc : List HexTile × ℕ) h =>
      let center := hexToPixelZ h
      (acc.1 ++ [⟨h, center, hexCornersZ center, ids acc.2⟩], acc.2 + 1))
    ([], 0)

/-- The corner loop: getOrCreateNode for every corner of every hex tile. -/
def registerCorners (ids : ℕ → String) (hts : List HexTile) (st : GenState) :
    GenState :=
  hts.foldl
    (fun st1 ht => ht.corners.foldl
      (fun st2 c => (getOrCreateNode ids st2 c).2) st1)
    st

/-- One entry of the tiles array: node ids for the six corners, edge ids
for consecutive corner pairs, shape HEXAGON = 6, placeholder resource. -/
def buildTile (ids : ℕ → String) (st : GenState) (ht : HexTile) :
    GameMap.Tile × GenState :=
  let r1 := ht.corners.foldl
    (fun (acc : List String × GenState) c =>
      let r := getOrCreateNode ids acc.2 c
      (acc.1 ++ [r.1], r.2))
    ([], st)
  let nodeIds := r1.1
  let r2 := (List.range nodeIds.length).foldl
    (fun (acc : List String × GenState) i =>
      let r := getOrCreateEdge ids acc.2 (nodeIds.getD i "")
        (nodeIds.getD ((i + 1) % nodeIds.length) "")
      (acc.1 ++ [r.1], r.2))
    ([], r1.2)
  (⟨ht.id, 6, GameMap.Resource.wood, none, r2.1, nodeIds, false, false⟩, r2.2)

/-- The tiles map of generateRegularHexMap. -/
def buildTiles (ids : ℕ → String) (hts : List HexTile) (st : GenState) :
    List GameMap.Tile × GenState :=
  hts.foldl
    (fun (acc : List GameMap.Tile × GenState) ht =>
      let r := buildTile ids acc.2 ht
      (acc.1 ++ [r.1], r.2))
    ([], st)

/-- One step of the node-to-tiles map build: create the entry when absent,
then push the tile id onto it (keys stay unique, so updating every
matching entry updates the single one). -/
def pushNodeTile (ntm : List (String × List String)) (nid tid : String) :
    List (String × List String) :=
  if ntm.any (fun e => e.1 = nid) then
    ntm.map (fun e => if e.1 = nid then (e.1, e.2 ++ [tid]) else e)
  else ntm ++ [(nid, [tid])]

/-- The nodeTilesMap of generateRegularHexMap: for every tile, push its id
onto the entry of every node it touches. -/
def nodeTilesMapOf (tiles : List GameMap.Tile) : List (String × List String) :=
  tiles.foldl
    (fun ntm tile => tile.nodes.foldl
      (fun ntm2 nid => pushNodeTile ntm2 nid tile.id) ntm)
    []

/-- The node objects: one per nodeMap entry in insertion order, with the
tiles list from nodeTilesMap (or empty). -/
def mkNodes (st : GenState) (ntm : List (String × List String)) :
    List GameMap.Node :=
  st.nodeMap.map fun e =>
    ⟨e.2.nodeId,
      (((ntm.find? (fun x => x.1 = e.2.nodeId)).map Prod.snd).getD []),
      false⟩

/-- JS id || null: undefined and the empty string give null. -/
def jsIdOpt : Option String → Option String
  | none => none
  | some s => if s.isEmpty then none else some s

/-- The edges loop of generateRegularHexMap: walk every consecutive node
pair of every tile, skip edge ids already processed, and record the first
two tiles whose edge list contains the id. -/
def buildEdges (ids : ℕ → String) (tiles : List GameMap.Tile) (st : GenState) :
    List GameMap.Edge × GenState :=
  ((tiles.foldl
    (fun (acc : (List GameMap.Edge × List String) × GenState) tile =>
      (List.range tile.nodes.length).foldl
        (fun (acc2 : (List GameMap.Edge × List String) × GenState) i =>
          let nodeA := tile.nodes.getD i ""
          let nodeB := tile.nodes.getD ((i + 1) % tile.nodes.length) ""
          let r := getOrCreateEdge ids acc2.2 nodeA nodeB
          if r.1 ∈ acc2.1.2 then (acc2.1, r.2)
          else
            let withEdge := tiles.filter (fun t => r.1 ∈ t.edges)
            ((acc2.1.1 ++ [⟨r.1, nodeA, nodeB,
                jsIdOpt ((withEdge[0]?).map GameMap.Tile.id),
                jsIdOpt ((withEdge[1]?).map GameMap.Tile.id), false⟩],
              acc2.1.2 ++ [r.1]), r.2))
        acc)
    (([], []), st)).1.1,
  (tiles.foldl
    (fun (acc : (List GameMap.Edge × List String) × GenState) tile =>
      (List.range tile.nodes.length).foldl
        (fun (acc2 : (List GameMap.Edge × List String) × GenState) i =>
          let nodeA := tile.nodes.getD i ""
          let nodeB := tile.nodes.getD ((i + 1) % tile.nodes.length) ""
          let r := getOrCreateEdge ids acc2.2 nodeA nodeB
          if r.1 ∈ acc2.1.2 then (acc2.1, r.2)
          else
            let withEdge := tiles.filter (fun t => r.1 ∈ t.edges)
            ((acc2.1.1 ++ [⟨r.1, nodeA, nodeB,
                jsIdOpt ((withEdge[0]?).map GameMap.Tile.id),
                jsIdOpt ((withEdge[1]?).map GameMap.Tile.id), false⟩],
              acc2.1.2 ++ [r.1]), r.2))
        acc)
    (([], []), st)).2)

/-- The 19-card resource deck of hexGenerator assignResourcesAndDice. -/
def resourceDeck : List GameMap.Resource :=
  [GameMap.Resource.wood, GameMap.Resource.wood, GameMap.Resource.wood,
    GameMap.Resource.wood, GameMap.Resource.brick, GameMap.Resource.brick,
    GameMap.Resource.brick, GameMap.Resource.sheep, GameMap.Resource.sheep,
    GameMap.Resource.sheep, GameMap.Resource.sheep, GameMap.Resource.wheat,
    GameMap.Resource.wheat, GameMap.Resource.wheat, GameMap.Resource.wheat,
    GameMap.Resource.ore, GameMap.Resource.ore, GameMap.Resource.ore,
    GameMap.Resource.desert]

/-- The 18 dice numbers (no 7). -/
def diceDeckHex : List ℤ := [2,3,3,4,4,5,5,6,6,8,8,9,9,10,10,11,11,12]

/-- The extra resources used past the standard deck. -/
def extraResources : List GameMap.Resource :=
  [GameMap.Resource.wood, GameMap.Resource.brick, GameMap.Resource.sheep,
    GameMap.Resource.wheat, GameMap.Resource.ore]

/-- A placeholder for JS indexing that the source keeps in range. -/
def dummyTile : GameMap.Tile :=
  ⟨"", 6, GameMap.Resource.wood, none, [], [], false, false⟩

/-- assignResourcesAndDice of hexGenerator.ts: shuffle both decks with the
seeded rng, deal resource by position and dice by a separate running
index (desert gets none and the robber), then give tiles beyond the deck
random extra resources and dice straight from the unshuffled dice list.
Only resource, diceNumber and robberPresent change; ids, nodes and edges
pass through. -/
def assignResourcesAndDice (tiles : List GameMap.Tile) (r : Utils.Rng) :
    List GameMap.Tile × Utils.Rng :=
  let sr := Utils.shuffle resourceDeck r
  let sd := Utils.shuffle diceDeckHex sr.2
  let shuffledResources := sr.1
  let shuffledDice := sd.1
  let main := (tiles.foldl
    (fun (acc : List GameMap.Tile × ℕ × ℕ) tile =>
      let idx := acc.2.1
      let diceIdx := acc.2.2
      if idx < shuffledResources.length then
        let res := shuffledResources.getD idx GameMap.Resource.wood
        if res = GameMap.Resource.desert then
          (acc.1 ++ [{ tile with
              resource := res
              diceNumber := none
              robberPresent := true }], idx + 1, diceIdx)
        else
          (acc.1 ++ [{ tile with
              resource := res
              diceNumber := some (shuffledDice.getD diceIdx 0) }],
            idx + 1, diceIdx + 1)
      else (acc.1 ++ [tile], idx + 1, diceIdx))
    ([], 0, 0)).1
  if shuffledResources.length < tiles.length then
    (List.range (tiles.length - shuffledResources.length)).foldl
      (fun (acc : List GameMap.Tile × Utils.Rng) k =>
        let i := shuffledResources.length + k
        let r1 := Utils.nextInt 0 4 acc.2
        let r2 := Utils.nextInt 0 17 r1.2
        let old := acc.1.getD i dummyTile
        (acc.1.set i { old with
            resource := extraResources.getD r1.1.toNat GameMap.Resource.wood
            diceNumber := some (diceDeckHex.getD r2.1.toNat 0) }, r2.2))
      (main, sd.2)
  else (main, sd.2)

/-- generateRegularHexMap from src/map/hexGenerator.ts, with the seeded
rng passed in (the source builds it from params.seed, defaulting to the
clock) and the Math.random id supply as the stream ids. -/
def generateRegularHexMap (target : Option ℤ) (rng : Utils.Rng)
    (ids : ℕ → String) : GameMap.MapData :=
  let radius := radiusOf target
  let hexCoords := hexSpiral (0, 0) radius
  let r0 := mkHexTiles ids hexCoords
  let st1 := registerCorners ids r0.1 ⟨[], [], r0.2⟩
  let r1 := buildTiles ids r0.1 st1
  let ntm := nodeTilesMapOf r1.1
  let nodes := mkNodes r1.2 ntm
  let r2 := buildEdges ids r1.1 r1.2
  let r3 := assignResourcesAndDice r1.1 rng
  ⟨r3.1, nodes, r2.1⟩

/-- generateExpandedHexMap: the regular generator at the given size. -/
def generateExpandedHexMap (size : ℤ) (rng : Utils.Rng) (ids : ℕ → String) :
    GameMap.MapData :=
  generateRegularHexMap (some size) rng ids

/-- A concrete injective id supply for evaluating the generator. -/
def idsA (k : ℕ) : String := String.mk (List.replicate k 'a')

/-- The length of the tiles list stored under a node id in a
nodeTilesMap (0 when absent), matching the list mkNodes stores. -/
def lookupLen (ntm : List (String × List String)) (nid : String) : ℕ :=
  (((ntm.find? (fun x => x.1 = nid)).map Prod.snd).getD []).length

/-- Invariant of the generator state from the moment the first corner c0
has been registered at id number n: the head of the nodeMap is the entry
of c0 carrying ids n, every later entry carries an id drawn strictly
after n, and the counter stays beyond n.  Both getOrCreate functions
preserve it. -/
def StInv (ids : ℕ → String) (n : ℕ) (c0 : Pt) (st : GenState) : Prop :=
  (∃ tl, st.nodeMap = (nodeKeyZ c0, ⟨c0, ids n⟩) :: tl ∧
    ∀ e ∈ tl, ∃ m, n < m ∧ e.2.nodeId = ids m) ∧
  n < st.counter

end HexGen

namespace Utils

theorem toInt32_mem (x : ℤ) : -2 ^ 31 ≤ toInt32 x ∧ toInt32 x < 2 ^ 31 := by
  unfold toInt32
  have h1 := Int.emod_nonneg (x + 2 ^ 31) (by norm_num : (2 ^ 32 : ℤ) ≠ 0)
  have h2 := Int.emod_lt_of_pos (x + 2 ^ 31) (by norm_num : (0 : ℤ) < 2 ^ 32)
  omega

theorem foldl_hashStep_mem (l : List Char) (h : ℤ) :
    l.foldl hashStep h = h ∨
      (-2 ^ 31 ≤ l.foldl hashStep h ∧ l.foldl hashStep h < 2 ^ 31) := by
  induction l generalizing h with
  | nil => exact Or.inl rfl
  | cons c t ih =>
    rcases ih (hashStep h c) with h1 | h1
    · right
      rw [List.foldl_cons, h1]
      simpa [hashStep] using toInt32_mem (toInt32 (h * 32) - h + c.toNat)
    · right
      exact h1

theorem hashCode_mem (s : String) : 0 ≤ hashCode s ∧ hashCode s ≤ 2 ^ 31 := by
  unfold hashCode
  rcases foldl_hashStep_mem s.data 0 with h | h
  · rw [h]; norm_num
  · omega

theorem next_mem (s : ℤ) (hs : 0 ≤ s) :
    0 ≤ (next ⟨s⟩).1 ∧ (next ⟨s⟩).1 < 1 ∧
      0 ≤ (next ⟨s⟩).2.seed ∧ (next ⟨s⟩).2.seed < 2 ^ 32 := by
  have harg : (0 : ℤ) ≤ s * 1664525 + 1013904223 := by positivity
  have h0 : 0 ≤ Int.tmod (s * 1664525 + 1013904223) (2 ^ 32) :=
    Int.tmod_nonneg _ harg
  have hlt : Int.tmod (s * 1664525 + 1013904223) (2 ^ 32) < 2 ^ 32 := by
    rw [Int.tmod_eq_emod harg (by norm_num)]
    exact Int.emod_lt_of_pos _ (by norm_num)
  have hnext : next ⟨s⟩ =
      ((Int.tmod (s * 1664525 + 1013904223) (2 ^ 32) : ℚ) / 2 ^ 32,
        ⟨Int.tmod (s * 1664525 + 1013904223) (2 ^ 32)⟩) := rfl
  rw [hnext]
  refine ⟨?_, ?_, ?_, ?_⟩
  · exact div_nonneg (by exact_mod_cast h0) (by norm_num)
  · rw [div_lt_one (by norm_num)]
    exact_mod_cast hlt
  · exact h0
  · exact hlt

/-- Counts after a single set, in additive form (avoids Nat subtraction). -/
theorem count_set_add [DecidableEq α] (l : List α) (n : Nat) (b x : α)
    (h : n < l.length) :
    (l.set n b).count x + (if l[n] = x then 1 else 0) =
      l.count x + (if b = x then 1 else 0) := by
  induction l generalizing n with
  | nil => simp at h
  | cons a t ih =>
    cases n with
    | zero => simp [List.count_cons]; omega
    | succ m =>
      have hm : m < t.length := by simpa using h
      have := ih m hm
      simp only [List.set_cons_succ, List.count_cons, List.getElem_cons_succ]
      omega

theorem swapList_perm (l : List α) (i j : Nat) : (swapList l i j).Perm l := by
  classical
  unfold swapList
  cases hi : l.get? i with
  | none => exact List.Perm.refl l
  | some a =>
    cases hj : l.get? j with
    | none => exact List.Perm.refl l
    | some b =>
      have hil : i < l.length := by
        by_contra hc
        rw [List.get?_eq_none.mpr (by omega)] at hi
        exact Option.noConfusion hi
      have hjl : j < l.length := by
        by_contra hc
        rw [List.get?_eq_none.mpr (by omega)] at hj
        exact Option.noConfusion hj
      have hia : l[i] = a := by
        have := List.get?_eq_get (l := l) hil
        rw [this] at hi
        simpa using hi
      have hjb : l[j] = b := by
        have := List.get?_eq_get (l := l) hjl
        rw [this] at hj
        simpa using hj
      show ((l.set i b).set j a).Perm l
      rw [List.perm_iff_count]
      intro x
      have e1 := count_set_add l i b x hil
      have hjl2 : j < (l.set i b).length := by simpa using hjl
      have e2 := count_set_add (l.set i b) j a x hjl2
      by_cases hij : i = j
      · subst hij
        have hsv : (l.set i b)[i] = b := List.getElem_set_self hjl2
        rw [hsv] at e2
        rw [hia] at e1
        have hab : a = b := by rw [← hia, ← hjb]
        subst hab
        omega
      · have hsv : (l.set i b)[j] = l[j] := List.getElem_set_ne hij hjl2
        rw [hsv, hjb] at e2
        rw [hia] at e1
        omega

theorem shuffleGo_perm (l : List α) (r : Rng) (n : Nat) :
    ((shuffleGo l r n).1).Perm l := by
  induction n generalizing l r with
  | zero => exact List.Perm.refl l
  | succ m ih =>
    unfold shuffleGo
    exact (ih _ _).trans (swapList_perm _ _ _)

theorem shuffle_perm (l : List α) (r : Rng) : ((shuffle l r).1).Perm l :=
  shuffleGo_perm l r (l.length - 1)

end Utils

/-- C10 counterexample: nextInt(0, -1) — which the source actually reaches,
e.g. rng.nextInt(0, tiles.length - 1) with an empty tiles array — returns 0,
which does not lie in the (empty) interval [0, -1], refuting the unrestricted
claim that nextInt(min, max) always returns an integer in [min, max]. -/
theorem c10_counterexample :
    (Utils.nextInt 0 (-1) ⟨0⟩).1 = 0 ∧
      ¬ (0 ≤ (Utils.nextInt 0 (-1) ⟨0⟩).1 ∧ (Utils.nextInt 0 (-1) ⟨0⟩).1 ≤ -1) := by
  have h : (Utils.nextInt 0 (-1) ⟨0⟩).1 = 0 := by
    norm_num [Utils.nextInt, Utils.next]
  refine ⟨h, ?_⟩
  rw [h]
  omega

/-- C10 (amended): for every nonnegative integer seed state, next() returns a
number in [0,1) and keeps the seed a nonnegative integer below 2^32; string
seeds hash to a nonnegative integer of at most 2^31; nextInt(min, max)
returns an integer in [min, max] whenever min ≤ max; and shuffle returns a
new list that is a permutation of its input (the source copies the array, so
the input is left unmodified). -/
theorem c10_theorem :
    (∀ s : ℤ, 0 ≤ s →
        0 ≤ (Utils.next ⟨s⟩).1 ∧ (Utils.next ⟨s⟩).1 < 1 ∧
          0 ≤ (Utils.next ⟨s⟩).2.seed ∧ (Utils.next ⟨s⟩).2.seed < 2 ^ 32) ∧
    (∀ str : String, 0 ≤ Utils.hashCode str ∧ Utils.hashCode str ≤ 2 ^ 31) ∧
    (∀ s lo hi : ℤ, 0 ≤ s → lo ≤ hi →
        lo ≤ (Utils.nextInt lo hi ⟨s⟩).1 ∧ (Utils.nextInt lo hi ⟨s⟩).1 ≤ hi) ∧
    (∀ (α : Type) (l : List α) (r : Utils.Rng), ((Utils.shuffle l r).1).Perm l) := by
  refine ⟨Utils.next_mem, Utils.hashCode_mem, ?_, fun α l r => Utils.shuffle_perm l r⟩
  intro s lo hi hs hlohi
  obtain ⟨hv0, hv1, _, _⟩ := Utils.next_mem s hs
  have hk : (0 : ℚ) < (hi : ℚ) - (lo : ℚ) + 1 := by
    have : (lo : ℚ) ≤ (hi : ℚ) := by exact_mod_cast hlohi
    linarith
  constructor
  · have hfl : 0 ≤ ⌊(Utils.next ⟨s⟩).1 * ((hi : ℚ) - (lo : ℚ) + 1)⌋ :=
      Int.floor_nonneg.mpr (mul_nonneg hv0 (le_of_lt hk))
    simp only [Utils.nextInt]
    omega
  · have hmul : (Utils.next ⟨s⟩).1 * ((hi : ℚ) - (lo : ℚ) + 1) <
        (hi : ℚ) - (lo : ℚ) + 1 := by
      nlinarith
    have hfl : ⌊(Utils.next ⟨s⟩).1 * ((hi : ℚ) - (lo : ℚ) + 1)⌋ < hi - lo + 1 := by
      apply Int.floor_lt.mpr
      push_cast
      convert hmul using 2
    simp only [Utils.nextInt]
    omega

/-- C6: both in-circumcircle predicates (mapgen.js and the delaunayGenerator
module) first subtract the query point from a, b, c and return true exactly
when the standard 3x3 determinant over those point-relative coordinates is
strictly positive. -/
theorem c6_theorem (p a b c : Q2) :
    (Mapgen.inCircumcircle p.1 p.2 a.1 a.2 b.1 b.2 c.1 c.2 = true ↔
        0 < (circleMatrix p a b c).det) ∧
      (DelGen.inCircumcircleP p a b c = true ↔ 0 < (circleMatrix p a b c).det) := by
  have hdet : (circleMatrix p a b c).det =
      ((a.1 - p.1) * (a.1 - p.1) + (a.2 - p.2) * (a.2 - p.2)) *
          ((b.1 - p.1) * (c.2 - p.2) - (c.1 - p.1) * (b.2 - p.2)) -
        ((b.1 - p.1) * (b.1 - p.1) + (b.2 - p.2) * (b.2 - p.2)) *
          ((a.1 - p.1) * (c.2 - p.2) - (c.1 - p.1) * (a.2 - p.2)) +
        ((c.1 - p.1) * (c.1 - p.1) + (c.2 - p.2) * (c.2 - p.2)) *
          ((a.1 - p.1) * (b.2 - p.2) - (b.1 - p.1) * (a.2 - p.2)) := by
    rw [circleMatrix, Matrix.det_fin_three]
    simp [Matrix.cons_val_zero, Matrix.cons_val_one]
    ring
  constructor
  · rw [Mapgen.inCircumcircle, decide_eq_true_iff, hdet]
  · rw [DelGen.inCircumcircleP, decide_eq_true_iff, hdet]

theorem qmin_le_left (a b : ℚ) : qmin a b ≤ a := by
  unfold qmin
  split
  · exact le_refl a
  · next h => exact le_of_not_le h

theorem qmin_le_right (a b : ℚ) : qmin a b ≤ b := by
  unfold qmin
  split
  · next h => exact h
  · exact le_refl b

theorem le_qmax_left (a b : ℚ) : a ≤ qmax a b := by
  unfold qmax
  split
  · exact le_refl a
  · next h => exact le_of_not_le h

theorem le_qmax_right (a b : ℚ) : b ≤ qmax a b := by
  unfold qmax
  split
  · next h => exact h
  · exact le_refl b

theorem foldl_min_le_init (l : List ℚ) (a : ℚ) : l.foldl qmin a ≤ a := by
  induction l generalizing a with
  | nil => simp
  | cons y t ih => exact le_trans (ih (qmin a y)) (qmin_le_left a y)

theorem foldl_min_le (l : List ℚ) (a x : ℚ) (hx : x ∈ l) : l.foldl qmin a ≤ x := by
  induction l generalizing a with
  | nil => simp at hx
  | cons y t ih =>
    rcases List.mem_cons.mp hx with h | h
    · subst h
      exact le_trans (foldl_min_le_init t (qmin a x)) (qmin_le_right a x)
    · exact ih (qmin a y) h

theorem minList_le (l : List ℚ) (x : ℚ) (hx : x ∈ l) : minList l ≤ x :=
  foldl_min_le l (l.headD 0) x hx

theorem le_foldl_max_init (l : List ℚ) (a : ℚ) : a ≤ l.foldl qmax a := by
  induction l generalizing a with
  | nil => simp
  | cons y t ih => exact le_trans (le_qmax_left a y) (ih (qmax a y))

theorem le_foldl_max (l : List ℚ) (a x : ℚ) (hx : x ∈ l) : x ≤ l.foldl qmax a := by
  induction l generalizing a with
  | nil => simp at hx
  | cons y t ih =>
    rcases List.mem_cons.mp hx with h | h
    · subst h
      exact le_trans (le_qmax_right a x) (le_foldl_max_init t (qmax a x))
    · exact ih (qmax a y) h

theorem le_maxList (l : List ℚ) (x : ℚ) (hx : x ∈ l) : x ≤ maxList l :=
  le_foldl_max l (l.headD 0) x hx

namespace GameMap

theorem jsMapGet_mem (key : α → ID) (l : List α) (k : ID) (x : α)
    (h : jsMapGet key l k = some x) : x ∈ l := by
  unfold jsMapGet at h
  exact List.mem_reverse.mp (List.mem_of_find?_eq_some h)

theorem bfsFold_cons (visited queue : List ID) (t : ID) (ts : List ID) :
    bfsFold visited queue (t :: ts) =
      if t ∈ visited then bfsFold visited queue ts
      else bfsFold (visited ++ [t]) (queue ++ [t]) ts := by
  unfold bfsFold
  rw [List.foldl_cons]
  dsimp only
  by_cases ht : t ∈ visited
  · simp only [if_pos ht]
  · simp only [if_neg ht]

theorem bfsFold_len (ts visited queue : List ID) :
    (bfsFold visited queue ts).1.length + queue.length =
      (bfsFold visited queue ts).2.length + visited.length := by
  induction ts generalizing visited queue with
  | nil =>
    unfold bfsFold
    dsimp only [List.foldl_nil]
    omega
  | cons t ts ih =>
    rw [bfsFold_cons]
    by_cases ht : t ∈ visited
    · rw [if_pos ht]
      exact ih visited queue
    · rw [if_neg ht]
      have h2 := ih (visited ++ [t]) (queue ++ [t])
      simp only [List.length_append, List.length_singleton] at h2 ⊢
      omega

theorem bfsFold_nodup (ts visited queue : List ID) (hnd : visited.Nodup) :
    (bfsFold visited queue ts).1.Nodup := by
  induction ts generalizing visited queue with
  | nil => exact hnd
  | cons t ts ih =>
    rw [bfsFold_cons]
    by_cases ht : t ∈ visited
    · rw [if_pos ht]
      exact ih visited queue hnd
    · rw [if_neg ht]
      refine ih _ _ ?_
      rw [← List.concat_eq_append]
      exact List.Nodup.concat ht hnd

theorem bfsFold_mem (ts visited queue U : List ID)
    (hv : ∀ x ∈ visited, x ∈ U) (hts : ∀ x ∈ ts, x ∈ U) :
    ∀ x ∈ (bfsFold visited queue ts).1, x ∈ U := by
  induction ts generalizing visited queue with
  | nil => exact hv
  | cons t ts ih =>
    rw [bfsFold_cons]
    by_cases ht : t ∈ visited
    · rw [if_pos ht]
      exact ih visited queue hv fun x hx => hts x (List.mem_cons_of_mem t hx)
    · rw [if_neg ht]
      refine ih _ _ ?_ fun x hx => hts x (List.mem_cons_of_mem t hx)
      intro x hx
      rcases List.mem_append.mp hx with h | h
      · exact hv x h
      · rw [List.mem_singleton] at h
        subst h
        exact hts x (List.mem_cons_self x ts)

theorem adj_fold_mem (nodeM : ID → Option Node) (cid x : ID) :
    ∀ (l : List ID) (acc : List ID),
      x ∈ l.foldl
        (fun acc nodeId =>
          match nodeM nodeId with
          | none => acc
          | some node =>
            acc ++ node.tiles.filter fun t => decide (t ≠ cid))
        acc →
      x ∈ acc ∨ ∃ node, (∃ nid, nodeM nid = some node) ∧ x ∈ node.tiles := by
  intro l
  induction l with
  | nil =>
    intro acc hx
    exact Or.inl hx
  | cons a l ih =>
    intro acc hx
    rw [List.foldl_cons] at hx
    cases hnm : nodeM a with
    | none =>
      simp only [hnm] at hx
      exact ih acc hx
    | some node =>
      simp only [hnm] at hx
      rcases ih _ hx with h | h
      · rcases List.mem_append.mp h with h2 | h2
        · exact Or.inl h2
        · exact Or.inr ⟨node, ⟨a, hnm⟩, List.mem_of_mem_filter h2⟩
      · exact Or.inr h

theorem mem_adjOf (nodeM : ID → Option Node) (cur : Tile) (cid x : ID)
    (hx : x ∈ adjOf nodeM cur cid) :
    ∃ node, (∃ nid, nodeM nid = some node) ∧ x ∈ node.tiles := by
  unfold adjOf at hx
  rcases adj_fold_mem nodeM cid x cur.nodes [] hx with h | h
  · simp at h
  · exact h

theorem nodup_length_le_dedup (l U : List ID) (hnd : l.Nodup)
    (hsub : ∀ x ∈ l, x ∈ U) : l.length ≤ U.dedup.length := by
  have h2 : l.toFinset ⊆ U.toFinset := by
    intro x hx
    rw [List.mem_toFinset] at hx ⊢
    exact hsub x hx
  have h3 := Finset.card_le_card h2
  rw [List.card_toFinset, List.card_toFinset, List.Nodup.dedup hnd] at h3
  exact h3

theorem bfsLoop_stable (tileM : ID → Option Tile) (nodeM : ID → Option Node)
    (U : List ID)
    (hU : ∀ t cur, tileM t = some cur → ∀ x ∈ adjOf nodeM cur t, x ∈ U) :
    ∀ f f2 queue visited, visited.Nodup → (∀ v ∈ visited, v ∈ U) →
      U.dedup.length + queue.length ≤ f + visited.length →
      U.dedup.length + queue.length ≤ f2 + visited.length →
      bfsLoop tileM nodeM f queue visited =
        bfsLoop tileM nodeM f2 queue visited := by
  intro f
  induction f with
  | zero =>
    intro f2 queue visited hnd hsub hb hb2
    cases queue with
    | nil => cases f2 <;> rfl
    | cons c q =>
      exfalso
      have hlen := nodup_length_le_dedup visited U hnd hsub
      simp only [List.length_cons] at hb
      omega
  | succ f ih =>
    intro f2 queue visited hnd hsub hb hb2
    cases queue with
    | nil => cases f2 <;> rfl
    | cons c q =>
      have hlen := nodup_length_le_dedup visited U hnd hsub
      cases f2 with
      | zero =>
        exfalso
        simp only [List.length_cons] at hb2
        omega
      | succ f2 =>
        cases htile : tileM c with
        | none => simp only [bfsLoop, htile]
        | some cur =>
          simp only [bfsLoop, htile]
          have hts := hU c cur htile
          have hlen2 := bfsFold_len (adjOf nodeM cur c) visited q
          apply ih
          · exact bfsFold_nodup _ _ _ hnd
          · exact bfsFold_mem _ _ _ U hsub hts
          · simp only [List.length_cons] at hb
            omega
          · simp only [List.length_cons] at hb2
            omega

/-- The fuel passed by connectivityErrors is past the threshold: every
fuel at least 1 plus the total node-tile reference count gives the same
BFS result, so the fuel-out branch of bfsLoop is dead there. -/
theorem bfsLoop_fuel_high (m : MapData) (t0id : ID) (f f2 : ℕ)
    (hf : 1 + (m.nodes.map fun n => n.tiles.length).sum ≤ f)
    (hf2 : 1 + (m.nodes.map fun n => n.tiles.length).sum ≤ f2) :
    bfsLoop (jsMapGet Tile.id m.tiles) (jsMapGet Node.id m.nodes) f
        [t0id] [t0id] =
      bfsLoop (jsMapGet Tile.id m.tiles) (jsMapGet Node.id m.nodes) f2
        [t0id] [t0id] := by
  have hUlen : (t0id :: m.nodes.flatMap Node.tiles).length =
      1 + (m.nodes.map fun n => n.tiles.length).sum := by
    rw [List.length_cons, List.length_flatMap]
    have hmapeq : List.map (List.length ∘ Node.tiles) m.nodes =
        List.map (fun n => n.tiles.length) m.nodes := rfl
    rw [hmapeq]
    omega
  have hD : (t0id :: m.nodes.flatMap Node.tiles).dedup.length ≤
      (t0id :: m.nodes.flatMap Node.tiles).length :=
    List.Sublist.length_le (List.dedup_sublist _)
  apply bfsLoop_stable _ _ (t0id :: m.nodes.flatMap Node.tiles)
  · intro t cur htile x hx
    rcases mem_adjOf _ _ _ _ hx with ⟨node, ⟨nid, hnm⟩, hxt⟩
    have hnode : node ∈ m.nodes := jsMapGet_mem _ _ _ _ hnm
    exact List.mem_cons_of_mem _ (List.mem_flatMap.mpr ⟨node, hnode, hxt⟩)
  · exact List.nodup_singleton _
  · intro v hv
    rw [List.mem_singleton] at hv
    subst hv
    exact List.mem_cons_self _ _
  · simp only [List.length_singleton]
    omega
  · simp only [List.length_singleton]
    omega

theorem validateMapOrThrow_ok (m : MapData) (u : Unit)
    (h : validateMapOrThrow m = Except.ok u) : validateMap m = some [] := by
  unfold validateMapOrThrow at h
  cases hv : validateMap m with
  | none =>
    rw [hv] at h
    simp at h
  | some errs =>
    rw [hv] at h
    by_cases he : errs.isEmpty
    · rw [List.isEmpty_iff] at he
      rw [he]
    · simp [he] at h

end GameMap

namespace HexGen

theorem idsA_injective : Function.Injective idsA := by
  intro a b h
  have h2 : (List.replicate a 'a').length = (List.replicate b 'a').length := by
    have h3 := congrArg String.data h
    unfold idsA at h3
    dsimp only at h3
    rw [h3]
  simpa using h2

theorem foldl_inv (P : β → Prop) (f : β → α → β) (l : List α) (b : β)
    (hb : P b) (hf : ∀ b a, P b → P (f b a)) : P (l.foldl f b) := by
  induction l generalizing b with
  | nil => exact hb
  | cons a l ih => exact ih (f b a) (hf b a hb)

theorem getOrCreateNode_empty (ids : ℕ → String)
    (em : List ((String × String) × String)) (n : ℕ) (p : Pt) :
    getOrCreateNode ids ⟨[], em, n⟩ p =
      (ids n, ⟨[(nodeKeyZ p, ⟨p, ids n⟩)], em, n + 1⟩) := rfl

theorem getOrCreateNode_preserve (ids : ℕ → String) (n : ℕ) (c0 : Pt)
    (st : GenState) (p : Pt) (h : StInv ids n c0 st) :
    StInv ids n c0 (getOrCreateNode ids st p).2 := by
  obtain ⟨⟨tl, hmap, htl⟩, hc⟩ := h
  obtain ⟨nm, em, cnt⟩ := st
  dsimp only at hmap hc
  subst hmap
  unfold getOrCreateNode
  dsimp only
  split
  · exact ⟨⟨tl, rfl, htl⟩, hc⟩
  · refine ⟨⟨tl ++ [(nodeKeyZ p, ⟨p, ids cnt⟩)], ?_, ?_⟩, ?_⟩
    · rw [List.cons_append]
    · intro e he
      rcases List.mem_append.mp he with h1 | h1
      · exact htl e h1
      · rw [List.mem_singleton] at h1
        subst h1
        exact ⟨cnt, hc, rfl⟩
    · exact Nat.lt_succ_of_lt hc

theorem getOrCreateEdge_preserve (ids : ℕ → String) (n : ℕ) (c0 : Pt)
    (st : GenState) (a b : String) (h : StInv ids n c0 st) :
    StInv ids n c0 (getOrCreateEdge ids st a b).2 := by
  obtain ⟨⟨tl, hmap, htl⟩, hc⟩ := h
  obtain ⟨nm, em, cnt⟩ := st
  dsimp only at hmap hc
  subst hmap
  unfold getOrCreateEdge
  dsimp only
  split
  · exact ⟨⟨tl, rfl, htl⟩, hc⟩
  · split
    · exact ⟨⟨tl, rfl, htl⟩, hc⟩
    · exact ⟨⟨tl, rfl, htl⟩, Nat.lt_succ_of_lt hc⟩

theorem getOrCreateNode_result (ids : ℕ → String) (n : ℕ) (c0 : Pt)
    (st : GenState) (p : Pt) (hinj : Function.Injective ids)
    (h : StInv ids n c0 st) :
    ((getOrCreateNode ids st p).1 = ids n ↔ nodeKeyZ p = nodeKeyZ c0) := by
  obtain ⟨⟨tl, hmap, htl⟩, hc⟩ := h
  obtain ⟨nm, em, cnt⟩ := st
  dsimp only at hmap hc
  subst hmap
  unfold getOrCreateNode
  dsimp only
  by_cases hk : nodeKeyZ p = nodeKeyZ c0
  · rw [List.find?_cons_of_pos _ (by simp [hk])]
    dsimp only
    simp [hk]
  · rw [List.find?_cons_of_neg _ (by simp; intro h2; exact hk h2.symm)]
    cases hft : tl.find? (fun e => decide (e.1 = nodeKeyZ p)) with
    | some e =>
      obtain ⟨m, hm, he⟩ := htl e (List.mem_of_find?_eq_some hft)
      dsimp only
      rw [he]
      constructor
      · intro h2
        exact absurd (hinj h2) (by omega)
      · intro h2
        exact absurd h2 hk
    | none =>
      dsimp only
      constructor
      · intro h2
        exact absurd (hinj h2) (by omega)
      · intro h2
        exact absurd h2 hk

theorem find?_map_pred (g : α → α) (p : α → Bool)
    (hg : ∀ x, p (g x) = p x) (l : List α) :
    (l.map g).find? p = (l.find? p).map g := by
  induction l with
  | nil => rfl
  | cons e l ih =>
    rw [List.map_cons]
    cases hp : p e with
    | true =>
      rw [List.find?_cons_of_pos _ (by rw [hg]; exact hp),
        List.find?_cons_of_pos _ hp]
      rfl
    | false =>
      rw [List.find?_cons_of_neg _ (by rw [hg]; simp [hp]),
        List.find?_cons_of_neg _ (by simp [hp])]
      exact ih

theorem find?_append_none (p : α → Bool) (l1 l2 : List α)
    (h : l1.find? p = none) : (l1 ++ l2).find? p = l2.find? p := by
  induction l1 with
  | nil => rfl
  | cons e l ih =>
    cases hp : p e with
    | true =>
      rw [List.find?_cons_of_pos _ hp] at h
      exact absurd h (by simp)
    | false =>
      rw [List.find?_cons_of_neg _ (by simp [hp])] at h
      rw [List.cons_append, List.find?_cons_of_neg _ (by simp [hp])]
      exact ih h

theorem find?_append_some (p : α → Bool) (l1 l2 : List α) (e : α)
    (h : l1.find? p = some e) : (l1 ++ l2).find? p = some e := by
  induction l1 with
  | nil => exact absurd h (by simp)
  | cons a l ih =>
    cases hp : p a with
    | true =>
      rw [List.find?_cons_of_pos _ hp] at h
      rw [List.cons_append, List.find?_cons_of_pos _ hp]
      exact h
    | false =>
      rw [List.find?_cons_of_neg _ (by simp [hp])] at h
      rw [List.cons_append, List.find?_cons_of_neg _ (by simp [hp])]
      exact ih h

theorem lookupLen_push_self (ntm : List (String × List String))
    (nid tid : String) :
    lookupLen (pushNodeTile ntm nid tid) nid = lookupLen ntm nid + 1 := by
  unfold pushNodeTile lookupLen
  by_cases hany : ntm.any (fun e => decide (e.1 = nid)) = true
  · rw [if_pos hany]
    rw [find?_map_pred _ _ (fun x => by by_cases hx : x.1 = nid <;> simp [hx])]
    obtain ⟨e, hein, hpe⟩ := List.any_eq_true.mp hany
    have hs : (ntm.find? (fun x => decide (x.1 = nid))).isSome := by
      rw [List.find?_isSome]
      exact ⟨e, hein, hpe⟩
    obtain ⟨e2, he2⟩ := Option.isSome_iff_exists.mp hs
    rw [he2]
    have he21 : e2.1 = nid := by
      have h3 := List.find?_some he2
      simpa using h3
    simp only [Option.map_some', Option.getD_some]
    rw [if_pos he21]
    simp
  · rw [if_neg hany]
    have hnone : ntm.find? (fun x => decide (x.1 = nid)) = none := by
      rw [List.find?_eq_none]
      intro x hx hpx
      exact hany (List.any_eq_true.mpr ⟨x, hx, hpx⟩)
    rw [find?_append_none _ _ _ hnone, hnone]
    rw [List.find?_cons_of_pos _ (by simp)]
    simp

theorem lookupLen_push_other (ntm : List (String × List String))
    (nid tid nid' : String) (hne : nid' ≠ nid) :
    lookupLen (pushNodeTile ntm nid tid) nid' = lookupLen ntm nid' := by
  unfold pushNodeTile lookupLen
  by_cases hany : ntm.any (fun e => decide (e.1 = nid)) = true
  · rw [if_pos hany]
    rw [find?_map_pred _ _ (fun x => by by_cases hx : x.1 = nid <;> simp [hx])]
    cases hf : ntm.find? (fun x => decide (x.1 = nid')) with
    | none => rfl
    | some e =>
      have he1 : e.1 = nid' := by
        have h3 := List.find?_some hf
        simpa using h3
      have hgne : (if e.1 = nid then (e.1, e.2 ++ [tid]) else e) = e := by
        rw [if_neg (by rw [he1]; exact hne)]
      simp only [Option.map_some', Option.getD_some]
      rw [hgne]
  · rw [if_neg hany]
    cases hf : ntm.find? (fun x => decide (x.1 = nid')) with
    | some e =>
      rw [find?_append_some _ _ _ _ hf]
    | none =>
      rw [find?_append_none _ _ _ hf]
      rw [List.find?_cons_of_neg _ (by simp; exact fun h => hne h.symm)]
      rfl

theorem lookupLen_nodesFold (tid nid0 : String) :
    ∀ (nds : List String) (ntm : List (String × List String)),
      lookupLen (nds.foldl (fun m nid => pushNodeTile m nid tid) ntm) nid0 =
        lookupLen ntm nid0 + nds.count nid0 := by
  intro nds
  induction nds with
  | nil =>
    intro ntm
    simp
  | cons x nds ih =>
    intro ntm
    rw [List.foldl_cons, ih, List.count_cons]
    by_cases hx : x = nid0
    · subst hx
      rw [lookupLen_push_self]
      simp
      omega
    · rw [lookupLen_push_other _ _ _ _ (fun h => hx h.symm)]
      simp [hx]

theorem lookupLen_tilesFold (nid0 : String) :
    ∀ (tiles : List GameMap.Tile) (ntm : List (String × List String)),
      lookupLen (tiles.foldl
        (fun m tile => tile.nodes.foldl
          (fun m2 nid => pushNodeTile m2 nid tile.id) m) ntm) nid0 =
        lookupLen ntm nid0 +
          (tiles.map (fun t => t.nodes.count nid0)).sum := by
  intro tiles
  induction tiles with
  | nil =>
    intro ntm
    simp
  | cons t tiles ih =>
    intro ntm
    rw [List.foldl_cons, ih, List.map_cons, List.sum_cons,
      lookupLen_nodesFold]
    omega

theorem cornerFold_spec (ids : ℕ → String) (n : ℕ) (c0 : Pt)
    (hinj : Function.Injective ids) :
    ∀ (cs : List Pt) (acc : List String) (st : GenState), StInv ids n c0 st →
      (cs.foldl
        (fun (a : List String × GenState) c =>
          let r := getOrCreateNode ids a.2 c
          (a.1 ++ [r.1], r.2))
        (acc, st)).1.count (ids n) =
        acc.count (ids n) + (cs.map nodeKeyZ).count (nodeKeyZ c0) ∧
      StInv ids n c0 ((cs.foldl
        (fun (a : List String × GenState) c =>
          let r := getOrCreateNode ids a.2 c
          (a.1 ++ [r.1], r.2))
        (acc, st)).2) := by
  intro cs
  induction cs with
  | nil =>
    intro acc st h
    exact ⟨by simp, h⟩
  | cons c cs ih =>
    intro acc st h
    rw [List.foldl_cons]
    dsimp only
    have hres := getOrCreateNode_result ids n c0 st c hinj h
    have hpres := getOrCreateNode_preserve ids n c0 st c h
    have ihx := ih (acc ++ [(getOrCreateNode ids st c).1]) _ hpres
    refine ⟨?_, ihx.2⟩
    rw [ihx.1, List.map_cons, List.count_cons, List.count_append]
    by_cases hk : nodeKeyZ c = nodeKeyZ c0
    · have h1 : (getOrCreateNode ids st c).1 = ids n := hres.mpr hk
      rw [h1]
      simp [hk]
      try omega
    · have h1 : ¬(getOrCreateNode ids st c).1 = ids n :=
        fun hcon => hk (hres.mp hcon)
      simp [h1, hk, List.count_cons, List.count_nil]

theorem buildTile_spec (ids : ℕ → String) (n : ℕ) (c0 : Pt)
    (hinj : Function.Injective ids) (st : GenState) (ht : HexTile)
    (h : StInv ids n c0 st) :
    (buildTile ids st ht).1.nodes.count (ids n) =
      (ht.corners.map nodeKeyZ).count (nodeKeyZ c0) ∧
    StInv ids n c0 (buildTile ids st ht).2 := by
  unfold buildTile
  dsimp only
  have hcf := cornerFold_spec ids n c0 hinj ht.corners [] st h
  constructor
  · rw [hcf.1]
    simp
  · exact foldl_inv (fun (a : List String × GenState) => StInv ids n c0 a.2)
      _ _ _ hcf.2
      (fun b i hb => getOrCreateEdge_preserve ids n c0 b.2 _ _ hb)

theorem buildTiles_spec (ids : ℕ → String) (n : ℕ) (c0 : Pt)
    (hinj : Function.Injective ids) :
    ∀ (hts : List HexTile) (acc : List GameMap.Tile) (st : GenState),
      StInv ids n c0 st →
      ((hts.foldl
          (fun (a : List GameMap.Tile × GenState) ht =>
            let r := buildTile ids a.2 ht
            (a.1 ++ [r.1], r.2))
          (acc, st)).1.map (fun t => t.nodes.count (ids n))).sum =
        (acc.map (fun t => t.nodes.count (ids n))).sum +
          (hts.map (fun ht =>
            (ht.corners.map nodeKeyZ).count (nodeKeyZ c0))).sum ∧
      StInv ids n c0 ((hts.foldl
          (fun (a : List GameMap.Tile × GenState) ht =>
            let r := buildTile ids a.2 ht
            (a.1 ++ [r.1], r.2))
          (acc, st)).2) := by
  intro hts
  induction hts with
  | nil =>
    intro acc st h
    exact ⟨by simp, h⟩
  | cons ht hts ih =>
    intro acc st h
    rw [List.foldl_cons]
    dsimp only
    have hbt := buildTile_spec ids n c0 hinj st ht h
    have ihx := ih (acc ++ [(buildTile ids st ht).1]) _ hbt.2
    refine ⟨?_, ihx.2⟩
    rw [ihx.1, List.map_cons, List.sum_cons, List.map_append, List.sum_append]
    simp only [List.map_cons, List.map_nil, List.sum_cons, List.sum_nil]
    rw [hbt.1]
    omega

theorem lookupLen_nodeTilesMapOf (tiles : List GameMap.Tile) (nid0 : String) :
    lookupLen (nodeTilesMapOf tiles) nid0 =
      (tiles.map (fun t => t.nodes.count nid0)).sum := by
  unfold nodeTilesMapOf
  rw [lookupLen_tilesFold]
  have h0 : lookupLen [] nid0 = 0 := rfl
  rw [h0, Nat.zero_add]

theorem mkHexTiles_fold_corners (ids : ℕ → String) :
    ∀ (coords : List (ℤ × ℤ)) (acc : List HexTile) (k : ℕ),
      ((coords.foldl
        (fun (a : List HexTile × ℕ) h =>
          let center := hexToPixelZ h
          (a.1 ++ [⟨h, center, hexCornersZ center, ids a.2⟩], a.2 + 1))
        (acc, k)).1).map HexTile.corners =
        acc.map HexTile.corners ++
          coords.map (fun h => hexCornersZ (hexToPixelZ h)) := by
  intro coords
  induction coords with
  | nil =>
    intro acc k
    simp
  | cons h0 coords ih =>
    intro acc k
    rw [List.foldl_cons]
    dsimp only
    rw [ih, List.map_append, List.map_cons]
    simp

theorem mkHexTiles_corners (ids : ℕ → String) (coords : List (ℤ × ℤ)) :
    (mkHexTiles ids coords).1.map HexTile.corners =
      coords.map (fun h => hexCornersZ (hexToPixelZ h)) := by
  unfold mkHexTiles
  rw [mkHexTiles_fold_corners]
  simp

theorem registerCorners_eq (ids : ℕ → String) :
    ∀ (hts : List HexTile) (st : GenState),
      registerCorners ids hts st =
        (hts.flatMap HexTile.corners).foldl
          (fun s c => (getOrCreateNode ids s c).2) st := by
  intro hts
  induction hts with
  | nil =>
    intro st
    rfl
  | cons ht hts ih =>
    intro st
    rw [List.flatMap_cons, List.foldl_append]
    have hstep : registerCorners ids (ht :: hts) st =
        registerCorners ids hts
          (ht.corners.foldl (fun s c => (getOrCreateNode ids s c).2) st) := rfl
    rw [hstep, ih]

theorem flatMap_congr (f : α → List γ) (g : β → List γ) :
    ∀ (l1 : List α) (l2 : List β), l1.map f = l2.map g →
      l1.flatMap f = l2.flatMap g := by
  intro l1
  induction l1 with
  | nil =>
    intro l2 h
    cases l2 with
    | nil => rfl
    | cons b l2 => simp at h
  | cons a l1 ih =>
    intro l2 h
    cases l2 with
    | nil => simp at h
    | cons b l2 =>
      rw [List.map_cons, List.map_cons] at h
      injection h with h1 h2
      rw [List.flatMap_cons, List.flatMap_cons, h1, ih l2 h2]

theorem map_comp_congr (f : α → γ) (g : β → γ) (h : γ → δ) :
    ∀ (l1 : List α) (l2 : List β), l1.map f = l2.map g →
      l1.map (fun x => h (f x)) = l2.map (fun x => h (g x)) := by
  intro l1
  induction l1 with
  | nil =>
    intro l2 hm
    cases l2 with
    | nil => rfl
    | cons b l2 => simp at hm
  | cons a l1 ih =>
    intro l2 hm
    cases l2 with
    | nil => simp at hm
    | cons b l2 =>
      rw [List.map_cons, List.map_cons] at hm
      injection hm with h1 h2
      rw [List.map_cons, List.map_cons, h1, ih l2 h2]

theorem radiusOf_37 : radiusOf (some 37) = 3 := by decide

/-- The corners of the central hex, exactly. -/
theorem corners_zero :
    hexCornersZ (hexToPixelZ (0, 0)) =
      [((0,25),(-25,0)), ((0,25),(25,0)), ((0,0),(50,0)), ((0,-25),(25,0)),
        ((0,-25),(-25,0)), ((0,0),(-50,0))] := by decide

set_option maxRecDepth 100000 in
/-- Over the radius-3 spiral, the rounded key of the first corner of the
central hex recurs exactly 4 times: once per copy of the central hex (the
mis-centered ring walk re-emits the center in each of the 3 rings). -/
theorem center_key_count :
    ((hexSpiral (0, 0) 3).map (fun hh =>
      ((hexCornersZ (hexToPixelZ hh)).map nodeKeyZ).count
        (nodeKeyZ ((0,25),(-25,0))))).sum = 4 := by decide

set_option maxRecDepth 100000 in
/-- The center hex occurs 4 times in the radius-3 spiral. -/
theorem center_count_4 : (hexSpiral (0, 0) 3).count (0, 0) = 4 := by decide

/-- The head node of the generated node list: it belongs to the first
corner registered, and its tiles list has one entry per corner of the
whole spiral whose rounded key equals the first corner key. -/
theorem pipeline_head_tiles (ids : ℕ → String)
    (hinj : Function.Injective ids) (coords : List (ℤ × ℤ)) (c0 : Pt)
    (rest : List Pt)
    (hsplit : ((mkHexTiles ids coords).1).flatMap HexTile.corners =
      c0 :: rest) :
    ∃ node ∈ mkNodes
        (buildTiles ids (mkHexTiles ids coords).1
          (registerCorners ids (mkHexTiles ids coords).1
            ⟨[], [], (mkHexTiles ids coords).2⟩)).2
        (nodeTilesMapOf
          (buildTiles ids (mkHexTiles ids coords).1
            (registerCorners ids (mkHexTiles ids coords).1
              ⟨[], [], (mkHexTiles ids coords).2⟩)).1),
      node.tiles.length =
        (coords.map (fun hh =>
          ((hexCornersZ (hexToPixelZ hh)).map nodeKeyZ).count
            (nodeKeyZ c0))).sum := by
  have hinvST1 : StInv ids (mkHexTiles ids coords).2 c0
      (registerCorners ids (mkHexTiles ids coords).1
        ⟨[], [], (mkHexTiles ids coords).2⟩) := by
    rw [registerCorners_eq, hsplit, List.foldl_cons]
    try dsimp only
    rw [getOrCreateNode_empty]
    try dsimp only
    exact foldl_inv (StInv ids (mkHexTiles ids coords).2 c0) _ _ _
      ⟨⟨[], rfl, fun e he => absurd he (List.not_mem_nil e)⟩,
        Nat.lt_succ_self _⟩
      (fun b a hb => getOrCreateNode_preserve ids _ c0 b a hb)
  have hbt := buildTiles_spec ids (mkHexTiles ids coords).2 c0 hinj
    (mkHexTiles ids coords).1 []
    (registerCorners ids (mkHexTiles ids coords).1
      ⟨[], [], (mkHexTiles ids coords).2⟩)
    hinvST1
  have hsum1 : ((buildTiles ids (mkHexTiles ids coords).1
      (registerCorners ids (mkHexTiles ids coords).1
        ⟨[], [], (mkHexTiles ids coords).2⟩)).1.map
      (fun t => t.nodes.count (ids (mkHexTiles ids coords).2))).sum =
      ((mkHexTiles ids coords).1.map (fun ht =>
        (ht.corners.map nodeKeyZ).count (nodeKeyZ c0))).sum := by
    have h2 := hbt.1
    simpa using h2
  have hinv3 : StInv ids (mkHexTiles ids coords).2 c0
      (buildTiles ids (mkHexTiles ids coords).1
        (registerCorners ids (mkHexTiles ids coords).1
          ⟨[], [], (mkHexTiles ids coords).2⟩)).2 := hbt.2
  have hcs : ((mkHexTiles ids coords).1.map (fun ht =>
      (ht.corners.map nodeKeyZ).count (nodeKeyZ c0))).sum =
      (coords.map (fun hh =>
        ((hexCornersZ (hexToPixelZ hh)).map nodeKeyZ).count
          (nodeKeyZ c0))).sum := by
    have h1 := map_comp_congr HexTile.corners
      (fun hh => hexCornersZ (hexToPixelZ hh))
      (fun cs => (cs.map nodeKeyZ).count (nodeKeyZ c0))
      (mkHexTiles ids coords).1 coords (mkHexTiles_corners ids coords)
    exact congrArg List.sum h1
  have hlook := lookupLen_nodeTilesMapOf
    (buildTiles ids (mkHexTiles ids coords).1
      (registerCorners ids (mkHexTiles ids coords).1
        ⟨[], [], (mkHexTiles ids coords).2⟩)).1
    (ids (mkHexTiles ids coords).2)
  obtain ⟨⟨tl, hmap, htl⟩, hcnt⟩ := hinv3
  refine ⟨⟨ids (mkHexTiles ids coords).2,
    ((((nodeTilesMapOf
        (buildTiles ids (mkHexTiles ids coords).1
          (registerCorners ids (mkHexTiles ids coords).1
            ⟨[], [], (mkHexTiles ids coords).2⟩)).1).find?
      (fun x => x.1 = ids (mkHexTiles ids coords).2)).map Prod.snd).getD []),
    false⟩, ?_, ?_⟩
  · unfold mkNodes
    rw [hmap, List.map_cons]
    exact List.mem_cons_self _ _
  · show lookupLen (nodeTilesMapOf
        (buildTiles ids (mkHexTiles ids coords).1
          (registerCorners ids (mkHexTiles ids coords).1
            ⟨[], [], (mkHexTiles ids coords).2⟩)).1)
        (ids (mkHexTiles ids coords).2) =
      (coords.map (fun hh =>
        ((hexCornersZ (hexToPixelZ hh)).map nodeKeyZ).count
          (nodeKeyZ c0))).sum
    rw [hlook, hsum1]
    exact hcs

theorem generateRegularHexMap_nodes (target : Option ℤ) (rng : Utils.Rng)
    (ids : ℕ → String) :
    (generateRegularHexMap target rng ids).nodes =
      mkNodes
        (buildTiles ids (mkHexTiles ids (hexSpiral (0, 0) (radiusOf target))).1
          (registerCorners ids
            (mkHexTiles ids (hexSpiral (0, 0) (radiusOf target))).1
            ⟨[], [], (mkHexTiles ids (hexSpiral (0, 0) (radiusOf target))).2⟩)).2
        (nodeTilesMapOf
          (buildTiles ids
            (mkHexTiles ids (hexSpiral (0, 0) (radiusOf target))).1
            (registerCorners ids
              (mkHexTiles ids (hexSpiral (0, 0) (radiusOf target))).1
              ⟨[], [],
                (mkHexTiles ids (hexSpiral (0, 0) (radiusOf target))).2⟩)).1) :=
  rfl

end HexGen

/-- C2: the claimed node invariant (every node of every generated map has
between 1 and 3 tiles) fails on the regular hex generator: with
targetTileCount 37 the derived radius is 3, the mis-centered ring walk of
hexRing makes the central hex coordinate occur 4 times in the spiral, the
four copies share every rounded corner key and therefore every node, and
the generated map contains a node whose tiles list has 4 entries.  Stated
at a concrete injective id supply and a concrete seed. -/
theorem c2_theorem :
    ∃ node ∈ (HexGen.generateRegularHexMap (some 37)
        (Utils.mkRng (Sum.inr 0)) HexGen.idsA).nodes,
      node.tiles.length = 4 := by
  rw [HexGen.generateRegularHexMap_nodes, HexGen.radiusOf_37]
  have hcorners := HexGen.mkHexTiles_corners HexGen.idsA
    (HexGen.hexSpiral (0, 0) 3)
  have hflat := HexGen.flatMap_congr HexGen.HexTile.corners
    (fun hh => HexGen.hexCornersZ (HexGen.hexToPixelZ hh))
    (HexGen.mkHexTiles HexGen.idsA (HexGen.hexSpiral (0, 0) 3)).1
    (HexGen.hexSpiral (0, 0) 3) hcorners
  have hsplit : ((HexGen.mkHexTiles HexGen.idsA
      (HexGen.hexSpiral (0, 0) 3)).1).flatMap HexGen.HexTile.corners =
      ((0,25),(-25,0)) ::
        ([((0,25),(25,0)), ((0,0),(50,0)), ((0,-25),(25,0)),
          ((0,-25),(-25,0)), ((0,0),(-50,0))] ++
          ((List.range 3).flatMap
            (fun k => HexGen.hexRing (0, 0) (k + 1))).flatMap
            (fun hh => HexGen.hexCornersZ (HexGen.hexToPixelZ hh))) := by
    rw [hflat]
    rw [show HexGen.hexSpiral (0, 0) 3 = (0, 0) ::
      (List.range 3).flatMap (fun k => HexGen.hexRing (0, 0) (k + 1)) from rfl]
    rw [List.flatMap_cons]
    try dsimp only
    rw [HexGen.corners_zero]
    rfl
  have key := HexGen.pipeline_head_tiles HexGen.idsA HexGen.idsA_injective
    (HexGen.hexSpiral (0, 0) 3) ((0,25),(-25,0)) _ hsplit
  rw [HexGen.center_key_count] at key
  exact key

/-- C1: for every generator behaviour and every GameOptions input,
generateMap never returns a structurally invalid graph: every map it
returns passes validateMap with an empty error list.  When validation of
the expanded-delaunay map throws, it falls back exactly once to the
hex-grid generator with the same seed and the same tile count
(delaunayTileCount or 30, the count also used for the delaunay call) and
re-validates, returning the fallback when that passes and surfacing the
fallback validation failure otherwise; a validation failure on the
standard or expanded-hex path is surfaced directly, and an unknown map
type is surfaced as an error. -/
theorem c1_theorem (g : GameMap.Generators) (o : GameMap.GameOptions) :
    (∀ m, GameMap.generateMap g o = Except.ok m →
      GameMap.validateMap m = some []) ∧
    (o.mapType = GameMap.MapType.expandedDelaunay →
      ∀ e, GameMap.validateMapOrThrow (g.generateDelaunayMap
          ⟨o.seed, GameMap.orElse30 o.delaunayTileCount, 3 / 10, 300, 2⟩) =
        Except.error e →
      GameMap.generateMap g o =
        match GameMap.validateMapOrThrow
            (g.generateExpandedHexMap
              (GameMap.orElse30 o.delaunayTileCount) o.seed) with
        | Except.ok _ =>
          Except.ok (g.generateExpandedHexMap
            (GameMap.orElse30 o.delaunayTileCount) o.seed)
        | Except.error e2 => Except.error (GameMap.GenError.exc e2)) ∧
    (o.mapType = GameMap.MapType.standard →
      ∀ e, GameMap.validateMapOrThrow (g.generateStandardCatanMap o.seed) =
        Except.error e →
      GameMap.generateMap g o = Except.error (GameMap.GenError.exc e)) ∧
    (o.mapType = GameMap.MapType.expandedHex →
      ∀ e, GameMap.validateMapOrThrow
          (g.generateExpandedHexMap (GameMap.orElse30 o.expandedMapSize)
            o.seed) = Except.error e →
      GameMap.generateMap g o = Except.error (GameMap.GenError.exc e)) ∧
    (∀ s, o.mapType = GameMap.MapType.unknown s →
      GameMap.generateMap g o =
        Except.error (GameMap.GenError.unknownMapType s)) := by
  obtain ⟨mt, ems, dtc, sd⟩ := o
  refine ⟨?_, ?_, ?_, ?_, ?_⟩
  · intro m hm
    cases mt with
    | unknown s => simp [GameMap.generateMap] at hm
    | standard =>
      unfold GameMap.generateMap GameMap.afterValidate at hm
      dsimp only at hm
      cases hv : GameMap.validateMapOrThrow (g.generateStandardCatanMap sd) with
      | ok u =>
        rw [hv] at hm
        simp only [Except.ok.injEq] at hm
        subst hm
        exact GameMap.validateMapOrThrow_ok _ u hv
      | error e =>
        rw [hv] at hm
        simp at hm
    | expandedHex =>
      unfold GameMap.generateMap GameMap.afterValidate at hm
      dsimp only at hm
      cases hv : GameMap.validateMapOrThrow
          (g.generateExpandedHexMap (GameMap.orElse30 ems) sd) with
      | ok u =>
        rw [hv] at hm
        simp only [Except.ok.injEq] at hm
        subst hm
        exact GameMap.validateMapOrThrow_ok _ u hv
      | error e =>
        rw [hv] at hm
        simp at hm
    | expandedDelaunay =>
      unfold GameMap.generateMap GameMap.afterValidate at hm
      dsimp only at hm
      cases hv : GameMap.validateMapOrThrow
          (g.generateDelaunayMap ⟨sd, GameMap.orElse30 dtc, 3 / 10, 300, 2⟩) with
      | ok u =>
        rw [hv] at hm
        simp only [Except.ok.injEq] at hm
        subst hm
        exact GameMap.validateMapOrThrow_ok _ u hv
      | error e =>
        rw [hv] at hm
        simp only [eq_self_iff_true, if_true] at hm
        cases hfb : GameMap.validateMapOrThrow
            (g.generateExpandedHexMap (GameMap.orElse30 dtc) sd) with
        | ok u2 =>
          rw [hfb] at hm
          simp only [Except.ok.injEq] at hm
          subst hm
          exact GameMap.validateMapOrThrow_ok _ u2 hfb
        | error e2 =>
          rw [hfb] at hm
          simp at hm
  · intro hmt e he
    dsimp only at hmt
    subst hmt
    unfold GameMap.generateMap GameMap.afterValidate
    dsimp only
    rw [he]
    simp only [eq_self_iff_true, if_true]
  · intro hmt e he
    dsimp only at hmt
    subst hmt
    unfold GameMap.generateMap GameMap.afterValidate
    dsimp only
    rw [he]
    simp
  · intro hmt e he
    dsimp only at hmt
    subst hmt
    unfold GameMap.generateMap GameMap.afterValidate
    dsimp only
    rw [he]
    simp
  · intro s hs
    dsimp only at hs
    subst hs
    rfl

/-- C1 witness: concrete generators whose delaunay map is invalid; the
fallback empty hex map validates, generateMap returns it, and it passes
validateMap. -/
theorem c1_witness :
    GameMap.generateMap GameMap.gens0 GameMap.opts0 =
      Except.ok GameMap.mzero ∧
    GameMap.validateMap GameMap.mzero = some [] := by
  have hgen : GameMap.generateMap GameMap.gens0 GameMap.opts0 =
      Except.ok GameMap.mzero := rfl
  exact ⟨hgen, (c1_theorem GameMap.gens0 GameMap.opts0).1 GameMap.mzero hgen⟩

/-- With target count 1 the sampler stops at once and returns exactly the
random start point: the output is a function of the Math.random stream. -/
theorem pd_one (rand : ℕ → ℚ) (cand : ℕ → Q2) :
    Mapgen.poissonDiscSampling 1 rand cand =
      [(Mapgen.boundsX + rand 0 * Mapgen.boundsW,
        Mapgen.boundsY + rand 1 * Mapgen.boundsH)] := by
  unfold Mapgen.poissonDiscSampling
  rw [Mapgen.pdLoop]
  simp

/-- C3: generation is not a deterministic function of (seed, parameters):
generateId and poissonDiscSampling draw from the global unseeded
Math.random (modelled as the explicit stream argument), and for draws that
are both legitimate Math.random values the outputs differ with all declared
inputs held fixed.  With draw 0 versus draw 1/2, generateId "tile" yields
different ids, and poissonDiscSampling with target 1 and any candidate
stream returns different point lists. -/
theorem c3_theorem :
    (∃ r1 r2 : ℚ, 0 ≤ r1 ∧ r1 < 1 ∧ 0 ≤ r2 ∧ r2 < 1 ∧
      Utils.generateId "tile" r1 ≠ Utils.generateId "tile" r2) ∧
    ∃ rand1 rand2 : ℕ → ℚ,
      (∀ k, 0 ≤ rand1 k ∧ rand1 k < 1) ∧
        (∀ k, 0 ≤ rand2 k ∧ rand2 k < 1) ∧
        ∀ cand : ℕ → Q2,
          Mapgen.poissonDiscSampling 1 rand1 cand ≠
            Mapgen.poissonDiscSampling 1 rand2 cand := by
  constructor
  · refine ⟨0, 1 / 2, by norm_num, by norm_num, by norm_num, by norm_num, ?_⟩
    with_unfolding_all decide
  · refine ⟨fun _ => 0, fun _ => 1 / 2,
      fun _ => ⟨le_refl 0, by norm_num⟩,
      fun _ => ⟨by norm_num, by norm_num⟩, ?_⟩
    intro cand
    rw [pd_one, pd_one]
    with_unfolding_all decide

/-- C4: with fewer than 3 input points both triangulators fail: mapgen.js
delaunay returns the bare empty array (the InsufficientPoints outcome,
modelled as the left summand, carrying no triangles), and the
delaunayGenerator bowyerWatson returns the empty triangle list. -/
theorem c4_theorem (ps : List Q2) (h : ps.length < 3) :
    Mapgen.delaunay ps = Sum.inl [] ∧ DelGen.bowyerWatson ps = [] := by
  constructor
  · simp [Mapgen.delaunay, h]
  · simp [DelGen.bowyerWatson, h]

/-- C4 witness: the triangulators invoked with exactly 2 points. -/
theorem c4_witness :
    Mapgen.delaunay [((0 : ℚ), (0 : ℚ)), (1, 1)] = Sum.inl [] ∧
      DelGen.bowyerWatson [((0 : ℚ), (0 : ℚ)), (1, 1)] = [] :=
  c4_theorem [((0 : ℚ), (0 : ℚ)), (1, 1)] (by decide)

/-- C5 counterexample: for the 3-point input (0,0), (10000,0), (0,1000) the
mapgen.js super-triangle is ((-1000,-1000), (11000,-1000), (5000,2000)), and
the input point (0,1000) lies strictly outside its left edge, refuting the
claim that the super-triangle strictly contains every input point. -/
theorem c5_counterexample :
    3 ≤ ([((0 : ℚ), (0 : ℚ)), (10000, 0), (0, 1000)] : List Q2).length ∧
      ((0 : ℚ), (1000 : ℚ)) ∈ ([((0 : ℚ), (0 : ℚ)), (10000, 0), (0, 1000)] : List Q2) ∧
      ¬ strictlyInside
          (Mapgen.superTriangleM [((0 : ℚ), (0 : ℚ)), (10000, 0), (0, 1000)])
          ((0 : ℚ), (1000 : ℚ)) := by
  refine ⟨by decide, by decide, ?_⟩
  with_unfolding_all decide

/-- C5 (amended): in the delaunayGenerator Bowyer-Watson triangulator, for
every input of at least 3 points that are not all coincident (deltaMax > 0),
the super-triangle strictly contains every input point.  The mapgen.js
triangulator's fixed 1000-unit padding does not have this property (see the
counterexample). -/
theorem c5_theorem (ps : List Q2) (_hlen : 3 ≤ ps.length)
    (hd : 0 < DelGen.deltaMaxBW ps) :
    ∀ p ∈ ps, strictlyInside (DelGen.superTriangleBW ps) p := by
  intro p hp
  have hx1 : minList (ps.map Prod.fst) ≤ p.1 :=
    minList_le _ _ (List.mem_map_of_mem Prod.fst hp)
  have hx2 : p.1 ≤ maxList (ps.map Prod.fst) :=
    le_maxList _ _ (List.mem_map_of_mem Prod.fst hp)
  have hy1 : minList (ps.map Prod.snd) ≤ p.2 :=
    minList_le _ _ (List.mem_map_of_mem Prod.snd hp)
  have hy2 : p.2 ≤ maxList (ps.map Prod.snd) :=
    le_maxList _ _ (List.mem_map_of_mem Prod.snd hp)
  have hdx : maxList (ps.map Prod.fst) - minList (ps.map Prod.fst) ≤
      DelGen.deltaMaxBW ps :=
    le_qmax_left (DelGen.dxBW ps) (DelGen.dyBW ps)
  have hdy : maxList (ps.map Prod.snd) - minList (ps.map Prod.snd) ≤
      DelGen.deltaMaxBW ps :=
    le_qmax_right (DelGen.dxBW ps) (DelGen.dyBW ps)
  unfold strictlyInside
  right
  simp only [DelGen.superTriangleBW, cross2]
  set d := DelGen.deltaMaxBW ps with hdef
  set mnx := minList (ps.map Prod.fst) with hmnx
  set mxx := maxList (ps.map Prod.fst) with hmxx
  set mny := minList (ps.map Prod.snd) with hmny
  set mxy := maxList (ps.map Prod.snd) with hmxy
  refine ⟨?_, ?_, ?_⟩ <;> nlinarith [hd, hx1, hx2, hy1, hy2, hdx, hdy,
    mul_pos hd hd]

/-- C5 witness: the amended theorem at a concrete 3-point non-degenerate
input. -/
theorem c5_witness :
    strictlyInside (DelGen.superTriangleBW [((0 : ℚ), (0 : ℚ)), (4, 0), (0, 4)])
      ((0 : ℚ), (0 : ℚ)) :=
  c5_theorem [((0 : ℚ), (0 : ℚ)), (4, 0), (0, 4)] (by decide)
    (by with_unfolding_all decide) ((0 : ℚ), (0 : ℚ)) (by decide)

namespace Mapgen

theorem insertPair_keys (m : List ((Nat × Nat) × ℚ)) (p : (Nat × Nat) × ℚ) :
    (insertPair m p).map Prod.fst = m.map Prod.fst ∨
      ((insertPair m p).map Prod.fst = m.map Prod.fst ++ [p.1] ∧
        p.1 ∉ m.map Prod.fst) := by
  unfold insertPair
  split
  · left
    rw [List.map_map]
    apply List.map_congr_left
    intro q _
    by_cases hc : q.1 = p.1 ∧ p.2 < q.2
    · simp [Function.comp, hc]
    · simp [Function.comp, hc]
  · next hna =>
    right
    constructor
    · rw [List.map_append]
      rfl
    · intro hmem
      rcases List.mem_map.mp hmem with ⟨q, hq, hq1⟩
      apply hna
      rw [List.any_eq_true]
      exact ⟨q, hq, by simp [hq1]⟩

theorem foldl_insertPair_nodup (l m : List ((Nat × Nat) × ℚ))
    (h : (m.map Prod.fst).Nodup) :
    ((l.foldl insertPair m).map Prod.fst).Nodup := by
  induction l generalizing m with
  | nil => exact h
  | cons p t ih =>
    apply ih
    rcases insertPair_keys m p with hk | ⟨hk, hnm⟩
    · rw [hk]
      exact h
    · rw [hk]
      refine h.append (List.nodup_singleton _) ?_
      intro x hx hmem
      rw [List.mem_singleton] at hmem
      subst hmem
      exact hnm hx

theorem uniquePairs_keys_nodup (s : MergeState) :
    ((uniquePairs s).map Prod.fst).Nodup :=
  foldl_insertPair_nodup _ [] (by simp)

theorem pairFor_self_left (keys : List (Nat × Nat)) (p : Nat × Nat)
    (hd : keys.Pairwise pairDisj) (hp : p ∈ keys) : pairFor keys p.1 = some p := by
  induction keys with
  | nil => simp at hp
  | cons q t ih =>
    rcases List.mem_cons.mp hp with hq | hq
    · subst hq
      exact List.find?_cons_of_pos _ (by simp)
    · obtain ⟨hall, hdt⟩ := List.pairwise_cons.mp hd
      obtain ⟨h1, _, h3, _⟩ := hall p hq
      rw [pairFor, List.find?_cons_of_neg _ (by simp [h1, h3])]
      exact ih hdt hq

theorem pairFor_self_right (keys : List (Nat × Nat)) (p : Nat × Nat)
    (hd : keys.Pairwise pairDisj) (hp : p ∈ keys) : pairFor keys p.2 = some p := by
  induction keys with
  | nil => simp at hp
  | cons q t ih =>
    rcases List.mem_cons.mp hp with hq | hq
    · subst hq
      exact List.find?_cons_of_pos _ (by simp)
    · obtain ⟨hall, hdt⟩ := List.pairwise_cons.mp hd
      obtain ⟨_, h2, _, h4⟩ := hall p hq
      rw [pairFor, List.find?_cons_of_neg _ (by simp [h2, h4])]
      exact ih hdt hq

theorem pairFor_none (keys : List (Nat × Nat)) (i : Nat)
    (h : ∀ q ∈ keys, i ≠ q.1 ∧ i ≠ q.2) : pairFor keys i = none := by
  rw [pairFor, List.find?_eq_none]
  intro q hq
  obtain ⟨h1, h2⟩ := h q hq
  simp [Ne.symm h1, Ne.symm h2]

end Mapgen

/-- C7 counterexample: deduplication removes only identical unordered
pairs, so overlapping pairs survive it, and the merge loop then depends on
index order.  In mergeStateA, tiles 1 and 3 are both 4-sided and both have
point 5 (indexed above both) as nearest neighbour; the deduplicated map
holds the overlapping pairs (1,5) and (3,5) and the loop merges both, so
point 5 participates in two merges in a single round (two midpoints built
from point 5).  In the mirrored mergeStateC the shared nearest neighbour
is point 0, indexed below both tiles; the pairs are (0,1) and (0,3),
point 0 merges only with the first pair, and the second pair is silently
dropped: neither its midpoint nor tile 3's original point (2,0) reaches
the new array.  Both rounds refute the claim that deduplication lets each
point merge at most once and each pair become one midpoint. -/
theorem c7_counterexample :
    (Mapgen.uniquePairs Mapgen.mergeStateA).map Prod.fst = [(1, 5), (3, 5)] ∧
      ¬ ((Mapgen.uniquePairs Mapgen.mergeStateA).map Prod.fst).Pairwise
          Mapgen.pairDisj ∧
      Mapgen.mergeStep Mapgen.mergeStateA [(1, 5), (3, 5)] 1 =
        some (midpointQ ((0 : ℚ), (0 : ℚ)) ((1 : ℚ), (0 : ℚ))) ∧
      Mapgen.mergeStep Mapgen.mergeStateA [(1, 5), (3, 5)] 3 =
        some (midpointQ ((2 : ℚ), (0 : ℚ)) ((1 : ℚ), (0 : ℚ))) ∧
      (Mapgen.uniquePairs Mapgen.mergeStateC).map Prod.fst = [(0, 1), (0, 3)] ∧
      Mapgen.mergeStep Mapgen.mergeStateC [(0, 1), (0, 3)] 0 =
        some (midpointQ ((1 : ℚ), (0 : ℚ)) ((0 : ℚ), (0 : ℚ))) ∧
      Mapgen.mergeStep Mapgen.mergeStateC [(0, 1), (0, 3)] 3 = none ∧
      midpointQ ((1 : ℚ), (0 : ℚ)) ((2 : ℚ), (0 : ℚ)) ∉
        (Mapgen.merge4SidedTiles Mapgen.mergeStateC).newPoints ∧
      ((2 : ℚ), (0 : ℚ)) ∉
        (Mapgen.merge4SidedTiles Mapgen.mergeStateC).newPoints := by
  refine ⟨?_, ?_, ?_, ?_, ?_, ?_, ?_, ?_, ?_⟩ <;> with_unfolding_all decide

/-- C7 (amended): merge pairs are deduplicated only as identical unordered
pairs (the unique-pair keys are without duplicates); whenever the resulting
pairs are pairwise disjoint — in particular for a single 4-sided tile — each
pair is merged exactly once: the first component contributes the exact
midpoint of the two paired points to the new array, the second component is
dropped, and every unpaired index keeps its original point.  Deduplication
does not make overlapping pairs safe: the counterexample exhibits one round
whose shared point participates in two merges and another round where an
overlapping pair is silently dropped with no midpoint. -/
theorem c7_theorem (s : Mapgen.MergeState)
    (hdisj : ((Mapgen.uniquePairs s).map Prod.fst).Pairwise Mapgen.pairDisj)
    (hk : ∀ p ∈ (Mapgen.uniquePairs s).map Prod.fst,
      p.1 < s.points.length ∧ p.2 < s.points.length ∧ p.1 ≠ p.2) :
    ((Mapgen.uniquePairs s).map Prod.fst).Nodup ∧
      (∀ p ∈ (Mapgen.uniquePairs s).map Prod.fst,
        Mapgen.mergeStep s ((Mapgen.uniquePairs s).map Prod.fst) p.1 =
            some (midpointQ (s.points.getD p.1 (0, 0)) (s.points.getD p.2 (0, 0))) ∧
          Mapgen.mergeStep s ((Mapgen.uniquePairs s).map Prod.fst) p.2 = none ∧
          midpointQ (s.points.getD p.1 (0, 0)) (s.points.getD p.2 (0, 0)) ∈
            (Mapgen.merge4SidedTiles s).newPoints) ∧
      (∀ i < s.points.length,
        (∀ q ∈ (Mapgen.uniquePairs s).map Prod.fst, i ≠ q.1 ∧ i ≠ q.2) →
          s.points.getD i (0, 0) ∈ (Mapgen.merge4SidedTiles s).newPoints) := by
  refine ⟨Mapgen.uniquePairs_keys_nodup s, ?_, ?_⟩
  · intro p hp
    obtain ⟨hp1, _, hpne⟩ := hk p hp
    have hL := Mapgen.pairFor_self_left _ p hdisj hp
    have hR := Mapgen.pairFor_self_right _ p hdisj hp
    have hstep1 : Mapgen.mergeStep s ((Mapgen.uniquePairs s).map Prod.fst) p.1 =
        some (midpointQ (s.points.getD p.1 (0, 0)) (s.points.getD p.2 (0, 0))) := by
      rw [Mapgen.mergeStep, hL]
      simp
    have hne : ¬ ((Mapgen.uniquePairs s).map Prod.fst).isEmpty = true := by
      intro hemp
      rw [List.isEmpty_iff] at hemp
      rw [hemp] at hp
      simp at hp
    refine ⟨hstep1, ?_, ?_⟩
    · rw [Mapgen.mergeStep, hR]
      simp [hpne]
    · rw [Mapgen.merge4SidedTiles]
      simp only [if_neg hne]
      exact List.mem_filterMap.mpr ⟨p.1, List.mem_range.mpr hp1, hstep1⟩
  · intro i hi hnot
    have hstep : Mapgen.mergeStep s ((Mapgen.uniquePairs s).map Prod.fst) i =
        some (s.points.getD i (0, 0)) := by
      rw [Mapgen.mergeStep, Mapgen.pairFor_none _ _ hnot]
    by_cases hne : ((Mapgen.uniquePairs s).map Prod.fst).isEmpty = true
    · rw [Mapgen.merge4SidedTiles]
      simp only [if_pos hne]
      rw [List.getD_eq_getElem s.points (0, 0) hi]
      exact List.getElem_mem hi
    · rw [Mapgen.merge4SidedTiles]
      simp only [if_neg hne]
      exact List.mem_filterMap.mpr ⟨i, List.mem_range.mpr hi, hstep⟩

/-- C7 witness: the amended theorem on the Scenario D state mergeStateB
(one synthetic 4-sided tile, index 1, with nearest neighbour point 5): the
pair collapses into the exact midpoint of the two points. -/
theorem c7_witness :
    Mapgen.mergeStep Mapgen.mergeStateB
        ((Mapgen.uniquePairs Mapgen.mergeStateB).map Prod.fst) 1 =
      some (midpointQ ((0 : ℚ), (0 : ℚ)) ((1 : ℚ), (0 : ℚ))) ∧
      midpointQ ((0 : ℚ), (0 : ℚ)) ((1 : ℚ), (0 : ℚ)) ∈
        (Mapgen.merge4SidedTiles Mapgen.mergeStateB).newPoints := by
  have h := (c7_theorem Mapgen.mergeStateB (by with_unfolding_all decide)
    (by with_unfolding_all decide)).2.1 (1, 5) (by with_unfolding_all decide)
  have e1 : Mapgen.mergeStateB.points.getD 1 (0, 0) = ((0 : ℚ), (0 : ℚ)) := rfl
  have e2 : Mapgen.mergeStateB.points.getD 5 (0, 0) = ((1 : ℚ), (0 : ℚ)) := rfl
  obtain ⟨ha, _, hc⟩ := h
  rw [e1, e2] at ha hc
  exact ⟨ha, hc⟩

namespace Mapgen

theorem foldl_sel_mem (f : Nat → Nat → Nat) (hf : ∀ b t, f b t = b ∨ f b t = t)
    (l : List Nat) (init : Nat) : l.foldl f init = init ∨ l.foldl f init ∈ l := by
  induction l generalizing init with
  | nil => exact Or.inl rfl
  | cons a t ih =>
    rw [List.foldl_cons]
    rcases ih (f init a) with h | h
    · rw [h]
      rcases hf init a with h2 | h2
      · exact Or.inl h2
      · right
        rw [h2]
        exact List.mem_cons_self a t
    · right
      exact List.mem_cons_of_mem a h

theorem mem_addSet (l : List Nat) (c x : Nat) : x ∈ addSet l c ↔ x ∈ l ∨ x = c := by
  unfold addSet
  split
  · next h =>
    constructor
    · exact Or.inl
    · rintro (hx | rfl)
      · exact hx
      · simpa using h
  · next h =>
    simp

theorem closestShoreOf_mem_land (e : ErosionState) (land : List Nat)
    (h : shoreTilesOf e land ≠ []) : closestShoreOf e land ∈ land := by
  have hmem : closestShoreOf e land ∈ shoreTilesOf e land := by
    unfold closestShoreOf minByDist
    rcases foldl_sel_mem
        (fun best t =>
          if distSq (e.points.getD e.rootTile (0, 0)) (e.points.getD t (0, 0)) <
              distSq (e.points.getD e.rootTile (0, 0))
                (e.points.getD best (0, 0))
          then t else best)
        (fun b t => by dsimp only; split <;> simp)
        (shoreTilesOf e land) ((shoreTilesOf e land).headD 0) with hc | hc
    · rw [hc]
      rcases hsh : shoreTilesOf e land with _ | ⟨a, t⟩
      · exact absurd hsh h
      · simp
    · exact hc
  exact (List.mem_filter.mp hmem).1

end Mapgen

/-- C8 counterexample: in erosionStateA with land {0,1,3}, the round removes
shore tile 1 (closest to the seed), there are still shore tiles afterwards,
but the furthest shore tile (3) has no valid non-land neighbour to add: the
round adds nothing and does not restore tile 1 — the land set shrinks, so
the round is not a no-op, refuting the claim that a round that finds no
valid shore tile to add restores the removed tile. -/
theorem c8_counterexample :
    (Mapgen.erosionRound Mapgen.erosionStateA [0, 1, 3] 0).added = none ∧
      (Mapgen.erosionRound Mapgen.erosionStateA [0, 1, 3] 0).land = [0, 3] ∧
      (1 : Nat) ∈ [0, 1, 3] ∧
      (1 : Nat) ∉ (Mapgen.erosionRound Mapgen.erosionStateA [0, 1, 3] 0).land := by
  refine ⟨?_, ?_, ?_, ?_⟩ <;> with_unfolding_all decide

/-- C8 (amended): a round with no shore tile at all is a no-op that stops
the loop; a round where, after removing the closest shore tile, no shore
tile remains restores the removed tile (the land set is unchanged as a set)
and stops the loop; but a round where shore tiles remain and the furthest
one has no valid non-land neighbour adds nothing and does not restore — the
land set is exactly the old set minus the removed tile. -/
theorem c8_theorem (e : Mapgen.ErosionState) (land : List Nat) (rnd : ℚ) :
    (Mapgen.shoreTilesOf e land = [] →
      Mapgen.erosionRound e land rnd = ⟨land, true, none⟩) ∧
      (Mapgen.shoreTilesOf e land ≠ [] →
        Mapgen.shoreTilesOf e (land.erase (Mapgen.closestShoreOf e land)) = [] →
          (Mapgen.erosionRound e land rnd).stop = true ∧
            ∀ x, x ∈ (Mapgen.erosionRound e land rnd).land ↔ x ∈ land) ∧
      (Mapgen.shoreTilesOf e land ≠ [] →
        Mapgen.shoreTilesOf e (land.erase (Mapgen.closestShoreOf e land)) ≠ [] →
          Mapgen.nonLandNeighborsOf e (land.erase (Mapgen.closestShoreOf e land)) = [] →
            (Mapgen.erosionRound e land rnd).added = none ∧
              (Mapgen.erosionRound e land rnd).land =
                land.erase (Mapgen.closestShoreOf e land)) := by
  refine ⟨?_, ?_, ?_⟩
  · intro h
    simp [Mapgen.erosionRound, h]
  · intro h1 h2
    have hc : Mapgen.closestShoreOf e land ∈ land :=
      Mapgen.closestShoreOf_mem_land e land h1
    have hne : (Mapgen.shoreTilesOf e land).isEmpty = false := by
      rcases hsh : Mapgen.shoreTilesOf e land with _ | ⟨a, t⟩
      · exact absurd hsh h1
      · rfl
    have hres : Mapgen.erosionRound e land rnd =
        ⟨Mapgen.addSet (land.erase (Mapgen.closestShoreOf e land))
            (Mapgen.closestShoreOf e land), true, none⟩ := by
      simp [Mapgen.erosionRound, hne, h2]
    rw [hres]
    refine ⟨rfl, ?_⟩
    intro x
    rw [Mapgen.mem_addSet]
    constructor
    · rintro (hx | rfl)
      · exact List.mem_of_mem_erase hx
      · exact hc
    · intro hx
      by_cases hxc : x = Mapgen.closestShoreOf e land
      · exact Or.inr hxc
      · exact Or.inl ((List.mem_erase_of_ne hxc).mpr hx)
  · intro h1 h2 h3
    have hne : (Mapgen.shoreTilesOf e land).isEmpty = false := by
      rcases hsh : Mapgen.shoreTilesOf e land with _ | ⟨a, t⟩
      · exact absurd hsh h1
      · rfl
    have hne2 : (Mapgen.shoreTilesOf e
        (land.erase (Mapgen.closestShoreOf e land))).isEmpty = false := by
      rcases hsh : Mapgen.shoreTilesOf e
          (land.erase (Mapgen.closestShoreOf e land)) with _ | ⟨a, t⟩
      · exact absurd hsh h2
      · rfl
    have hres : Mapgen.erosionRound e land rnd =
        ⟨land.erase (Mapgen.closestShoreOf e land), false, none⟩ := by
      simp [Mapgen.erosionRound, hne, hne2, h3]
    rw [hres]
    exact ⟨rfl, rfl⟩

/-- C8 witness: both restore and shrink branches of the amended theorem on
erosionStateA; with land {0} alone the removed tile is restored, with land
{0,1,3} the accretion candidate list is empty and the land shrinks. -/
theorem c8_witness :
    ((Mapgen.erosionRound Mapgen.erosionStateA [0] 0).stop = true ∧
        ((0 : Nat) ∈ (Mapgen.erosionRound Mapgen.erosionStateA [0] 0).land ↔
          (0 : Nat) ∈ ([0] : List Nat))) ∧
      (Mapgen.erosionRound Mapgen.erosionStateA [0, 1, 3] 0).land =
        [0, 1, 3].erase (Mapgen.closestShoreOf Mapgen.erosionStateA [0, 1, 3]) := by
  constructor
  · have h := (c8_theorem Mapgen.erosionStateA [0] 0).2.1
      (by with_unfolding_all decide) (by with_unfolding_all decide)
    exact ⟨h.1, h.2 0⟩
  · exact ((c8_theorem Mapgen.erosionStateA [0, 1, 3] 0).2.2
      (by with_unfolding_all decide) (by with_unfolding_all decide)
      (by with_unfolding_all decide)).2

namespace Mapgen

theorem distSq_comm (p q : Q2) : distSq p q = distSq q p := by
  unfold distSq
  ring

theorem distSq_nonneg (p q : Q2) : 0 ≤ distSq p q := by
  unfold distSq
  positivity

theorem minDistSq_pos (n : ℕ) (hn : 1 ≤ n) : 0 < minDistSq n := by
  have hnq : (0 : ℚ) < (n : ℚ) := by exact_mod_cast hn
  unfold minDistSq boundsW boundsH
  positivity

theorem cellSq_pos (n : ℕ) (hn : 1 ≤ n) : 0 < cellSq n := by
  have := minDistSq_pos n hn
  unfold cellSq
  linarith

theorem minDistSq_eq_two_cellSq (n : ℕ) : minDistSq n = 2 * cellSq n := by
  unfold cellSq
  ring

theorem ratSqrtFloor_spec (q : ℚ) (hq : 0 ≤ q) :
    ((ratSqrtFloor q : ℕ) : ℚ) ^ 2 ≤ q ∧ q < (((ratSqrtFloor q : ℕ) : ℚ) + 1) ^ 2 := by
  have hfl : (0 : ℤ) ≤ ⌊q⌋ := Int.floor_nonneg.mpr hq
  have hcast : (((⌊q⌋).toNat : ℕ) : ℚ) = ((⌊q⌋ : ℤ) : ℚ) := by
    exact_mod_cast Int.toNat_of_nonneg hfl
  have hm1 : (((⌊q⌋).toNat : ℕ) : ℚ) ≤ q := by
    rw [hcast]
    exact Int.floor_le q
  have hm2 : q < (((⌊q⌋).toNat : ℕ) : ℚ) + 1 := by
    rw [hcast]
    exact Int.lt_floor_add_one q
  have hk1 : (Nat.sqrt (⌊q⌋).toNat) ^ 2 ≤ (⌊q⌋).toNat := Nat.sqrt_le' _
  have hk2 : (⌊q⌋).toNat < (Nat.sqrt (⌊q⌋).toNat + 1) ^ 2 := Nat.lt_succ_sqrt' _
  have hk1q : ((Nat.sqrt (⌊q⌋).toNat : ℕ) : ℚ) ^ 2 ≤ q := by
    calc ((Nat.sqrt (⌊q⌋).toNat : ℕ) : ℚ) ^ 2 ≤ (((⌊q⌋).toNat : ℕ) : ℚ) := by
          exact_mod_cast hk1
      _ ≤ q := hm1
  have hk2q : q < (((Nat.sqrt (⌊q⌋).toNat : ℕ) : ℚ) + 2) ^ 2 := by
    have hc : (((⌊q⌋).toNat : ℕ) : ℚ) + 1 ≤
        (((Nat.sqrt (⌊q⌋).toNat : ℕ) : ℚ) + 1) ^ 2 := by
      exact_mod_cast hk2
    nlinarith [hm2, hc]
  unfold ratSqrtFloor
  dsimp only
  split
  · next hcond =>
    refine ⟨by exact_mod_cast hcond, ?_⟩
    push_cast
    push_cast at hk2q
    nlinarith [hk2q]
  · next hcond =>
    push_neg at hcond
    refine ⟨hk1q, ?_⟩
    push_cast
    push_cast at hcond
    linarith

theorem ratSqrtCeil_spec (q : ℚ) (hq : 0 ≤ q) :
    q ≤ ((ratSqrtCeil q : ℕ) : ℚ) ^ 2 := by
  obtain ⟨h1, h2⟩ := ratSqrtFloor_spec q hq
  unfold ratSqrtCeil
  dsimp only
  split
  · next heq => exact le_of_eq heq.symm
  · next heq =>
    push_cast
    push_cast at h2
    linarith

theorem mem_scanRange (lo hi x : ℕ) : x ∈ scanRange lo hi ↔ lo ≤ x ∧ x ≤ hi := by
  unfold scanRange
  rw [List.mem_range']
  constructor
  · rintro ⟨i, hi1, rfl⟩
    omega
  · intro ⟨h1, h2⟩
    exact ⟨x - lo, by omega, by omega⟩

theorem le_of_sq_le_sq' (u v : ℝ) (hu : 0 ≤ u) (hv : 0 ≤ v) (h : u ^ 2 ≤ v ^ 2) :
    u ≤ v := by nlinarith

theorem lt_of_sq_lt_sq'' (u v : ℝ) (hu : 0 ≤ u) (hv : 0 ≤ v) (h : u ^ 2 < v ^ 2) :
    u < v := by nlinarith

theorem abs_lt_of_sq_lt_sq'' (d e : ℝ) (he : 0 ≤ e) (h : d ^ 2 < e ^ 2) : |d| < e := by
  have h1 : |d| ^ 2 = d ^ 2 := sq_abs d
  have h2 : 0 ≤ |d| := abs_nonneg d
  nlinarith

/-- The real square-root bounds encoded by a cell index: k*s <= a < (k+1)*s
where s = sqrt(cellSq n). -/
theorem cell_bounds (c2 : ℚ) (hc2 : 0 < c2) (a : ℚ) (ha : 0 ≤ a) (k : ℕ)
    (h1 : ((k : ℕ) : ℚ) ^ 2 ≤ a ^ 2 / c2) (h2 : a ^ 2 / c2 < (((k : ℕ) : ℚ) + 1) ^ 2) :
    (k : ℝ) * Real.sqrt (c2 : ℚ) ≤ (a : ℚ) ∧
      ((a : ℚ) : ℝ) < ((k : ℝ) + 1) * Real.sqrt (c2 : ℚ) := by
  set s : ℝ := Real.sqrt ((c2 : ℚ) : ℝ) with hs
  have hc2r : (0 : ℝ) < ((c2 : ℚ) : ℝ) := by exact_mod_cast hc2
  have hspos : 0 < s := Real.sqrt_pos.mpr hc2r
  have hs2 : s ^ 2 = ((c2 : ℚ) : ℝ) := Real.sq_sqrt (le_of_lt hc2r)
  have har : (0 : ℝ) ≤ ((a : ℚ) : ℝ) := by exact_mod_cast ha
  have h1r : ((k : ℝ)) ^ 2 * ((c2 : ℚ) : ℝ) ≤ ((a : ℚ) : ℝ) ^ 2 := by
    have h1' : ((k : ℝ)) ^ 2 ≤ ((a : ℚ) : ℝ) ^ 2 / ((c2 : ℚ) : ℝ) := by
      exact_mod_cast h1
    rw [le_div_iff₀ hc2r] at h1'
    linarith
  have h2r : ((a : ℚ) : ℝ) ^ 2 < ((k : ℝ) + 1) ^ 2 * ((c2 : ℚ) : ℝ) := by
    have h2' : ((a : ℚ) : ℝ) ^ 2 / ((c2 : ℚ) : ℝ) < ((k : ℝ) + 1) ^ 2 := by
      exact_mod_cast h2
    rw [div_lt_iff₀ hc2r] at h2'
    linarith
  constructor
  · apply le_of_sq_le_sq' _ _ (by positivity) har
    rw [mul_pow, hs2]
    exact h1r
  · apply lt_of_sq_lt_sq'' _ _ har (by positivity)
    rw [mul_pow, hs2]
    exact h2r

/-- Two cell indices whose coordinates are within 2*s of each other differ
by at most 2. -/
theorem cells_close (s : ℝ) (hs : 0 < s) (a b : ℝ) (ka kb : ℕ)
    (hka1 : (ka : ℝ) * s ≤ a) (hka2 : a < ((ka : ℝ) + 1) * s)
    (hkb1 : (kb : ℝ) * s ≤ b) (hkb2 : b < ((kb : ℝ) + 1) * s)
    (h : |a - b| < 2 * s) : kb ≤ ka + 2 ∧ ka ≤ kb + 2 := by
  rw [abs_lt] at h
  constructor
  · by_contra hc
    push_neg at hc
    have hcast : ((ka : ℝ)) + 3 ≤ (kb : ℝ) := by exact_mod_cast hc
    nlinarith
  · by_contra hc
    push_neg at hc
    have hcast : ((kb : ℝ)) + 3 ≤ (ka : ℝ) := by exact_mod_cast hc
    nlinarith

/-- Equal cell indices force coordinates within s of each other. -/
theorem cells_eq_close (s : ℝ) (hs : 0 < s) (a b : ℝ) (k : ℕ)
    (hka1 : (k : ℝ) * s ≤ a) (hka2 : a < ((k : ℝ) + 1) * s)
    (hkb1 : (k : ℝ) * s ≤ b) (hkb2 : b < ((k : ℝ) + 1) * s) :
    (a - b) ^ 2 < s ^ 2 := by
  nlinarith

theorem cellCol_bounds (n : ℕ) (hn : 1 ≤ n) (x : ℚ) (hx : boundsX ≤ x) :
    ((cellCol n x : ℕ) : ℝ) * Real.sqrt ((cellSq n : ℚ) : ℝ) ≤
        ((x - boundsX : ℚ) : ℝ) ∧
      ((x - boundsX : ℚ) : ℝ) <
        (((cellCol n x : ℕ) : ℝ) + 1) * Real.sqrt ((cellSq n : ℚ) : ℝ) := by
  have hc2 := cellSq_pos n hn
  have hnn : (0 : ℚ) ≤ (x - boundsX) ^ 2 / cellSq n := by positivity
  obtain ⟨h1, h2⟩ := ratSqrtFloor_spec ((x - boundsX) ^ 2 / cellSq n) hnn
  exact cell_bounds (cellSq n) hc2 (x - boundsX) (by linarith) (cellCol n x) h1 h2

theorem cellRow_bounds (n : ℕ) (hn : 1 ≤ n) (y : ℚ) (hy : boundsY ≤ y) :
    ((cellRow n y : ℕ) : ℝ) * Real.sqrt ((cellSq n : ℚ) : ℝ) ≤
        ((y - boundsY : ℚ) : ℝ) ∧
      ((y - boundsY : ℚ) : ℝ) <
        (((cellRow n y : ℕ) : ℝ) + 1) * Real.sqrt ((cellSq n : ℚ) : ℝ) := by
  have hc2 := cellSq_pos n hn
  have hnn : (0 : ℚ) ≤ (y - boundsY) ^ 2 / cellSq n := by positivity
  obtain ⟨h1, h2⟩ := ratSqrtFloor_spec ((y - boundsY) ^ 2 / cellSq n) hnn
  exact cell_bounds (cellSq n) hc2 (y - boundsY) (by linarith) (cellRow n y) h1 h2

theorem sq_div_lt_of_lt (a b c2 : ℚ) (hc2 : 0 < c2) (h0 : 0 ≤ a) (hab : a < b) :
    a ^ 2 / c2 < b ^ 2 / c2 := by
  have : a ^ 2 < b ^ 2 := by nlinarith
  exact div_lt_div_of_pos_right this hc2

theorem nat_lt_of_sq_lt (u v : ℕ) (h : ((u : ℕ) : ℚ) ^ 2 < ((v : ℕ) : ℚ) ^ 2) :
    u < v := by
  by_contra hc
  push_neg at hc
  have : ((v : ℕ) : ℚ) ≤ ((u : ℕ) : ℚ) := by exact_mod_cast hc
  nlinarith

theorem cellCol_lt_gridW (n : ℕ) (hn : 1 ≤ n) (x : ℚ) (h1 : boundsX ≤ x)
    (h2 : x < boundsX + boundsW) : cellCol n x < gridW n := by
  have hc2 := cellSq_pos n hn
  have hnn : (0 : ℚ) ≤ (x - boundsX) ^ 2 / cellSq n := by positivity
  obtain ⟨hs1, _⟩ := ratSqrtFloor_spec ((x - boundsX) ^ 2 / cellSq n) hnn
  have hlt : (x - boundsX) ^ 2 / cellSq n < boundsW ^ 2 / cellSq n :=
    sq_div_lt_of_lt (x - boundsX) boundsW (cellSq n) hc2 (by linarith) (by linarith)
  have hceil : boundsW ^ 2 / cellSq n ≤ ((gridW n : ℕ) : ℚ) ^ 2 :=
    ratSqrtCeil_spec _ (by positivity)
  exact nat_lt_of_sq_lt _ _ (lt_of_le_of_lt hs1 (lt_of_lt_of_le hlt hceil))

theorem cellRow_lt_gridH (n : ℕ) (hn : 1 ≤ n) (y : ℚ) (h1 : boundsY ≤ y)
    (h2 : y < boundsY + boundsH) : cellRow n y < gridH n := by
  have hc2 := cellSq_pos n hn
  have hnn : (0 : ℚ) ≤ (y - boundsY) ^ 2 / cellSq n := by positivity
  obtain ⟨hs1, _⟩ := ratSqrtFloor_spec ((y - boundsY) ^ 2 / cellSq n) hnn
  have hlt : (y - boundsY) ^ 2 / cellSq n < boundsH ^ 2 / cellSq n :=
    sq_div_lt_of_lt (y - boundsY) boundsH (cellSq n) hc2 (by linarith) (by linarith)
  have hceil : boundsH ^ 2 / cellSq n ≤ ((gridH n : ℕ) : ℚ) ^ 2 :=
    ratSqrtCeil_spec _ (by positivity)
  exact nat_lt_of_sq_lt _ _ (lt_of_le_of_lt hs1 (lt_of_lt_of_le hlt hceil))

theorem flat_idx_inj (g a b a2 b2 : ℕ) (hb : b < g) (hb2 : b2 < g)
    (h : a * g + b = a2 * g + b2) : a = a2 ∧ b = b2 := by
  have hmod : (a * g + b) % g = (a2 * g + b2) % g := by rw [h]
  rw [Nat.add_comm (a * g) b, Nat.add_comm (a2 * g) b2, Nat.mul_comm a g,
    Nat.mul_comm a2 g, Nat.add_mul_mod_self_left, Nat.add_mul_mod_self_left,
    Nat.mod_eq_of_lt hb, Nat.mod_eq_of_lt hb2] at hmod
  subst hmod
  constructor
  · have hg : 0 < g := by omega
    have := Nat.add_right_cancel h
    exact Nat.eq_of_mul_eq_mul_right hg this
  · rfl

/-- Two in-rectangle points in the same grid cell are closer than
minDistance; hence no two accepted points can share a cell and grid
insertion never overwrites another accepted point. -/
theorem gridIdx_far (n : ℕ) (hn : 1 ≤ n) (p c : Q2) (hp : inRect p)
    (hc : inRect c) (hidx : gridIdx n p.1 p.2 = gridIdx n c.1 c.2) :
    distSq p c < minDistSq n := by
  obtain ⟨hp1, hp2, hp3, hp4⟩ := hp
  obtain ⟨hc1, hc2, hc3, hc4⟩ := hc
  have hcolp := cellCol_lt_gridW n hn p.1 hp1 hp2
  have hcolc := cellCol_lt_gridW n hn c.1 hc1 hc2
  obtain ⟨hrow, hcol⟩ := flat_idx_inj (gridW n) (cellRow n p.2) (cellCol n p.1)
    (cellRow n c.2) (cellCol n c.1) hcolp hcolc hidx
  have hcs := cellSq_pos n hn
  have hcsr : (0 : ℝ) < ((cellSq n : ℚ) : ℝ) := by exact_mod_cast hcs
  have hspos : 0 < Real.sqrt ((cellSq n : ℚ) : ℝ) := Real.sqrt_pos.mpr hcsr
  have hs2 : Real.sqrt ((cellSq n : ℚ) : ℝ) ^ 2 = ((cellSq n : ℚ) : ℝ) :=
    Real.sq_sqrt (le_of_lt hcsr)
  obtain ⟨hxp1, hxp2⟩ := cellCol_bounds n hn p.1 hp1
  obtain ⟨hxc1, hxc2⟩ := cellCol_bounds n hn c.1 hc1
  obtain ⟨hyp1, hyp2⟩ := cellRow_bounds n hn p.2 hp3
  obtain ⟨hyc1, hyc2⟩ := cellRow_bounds n hn c.2 hc3
  rw [hcol] at hxp1 hxp2
  rw [hrow] at hyp1 hyp2
  have hx : (((p.1 - boundsX : ℚ) : ℝ) - ((c.1 - boundsX : ℚ) : ℝ)) ^ 2 <
      Real.sqrt ((cellSq n : ℚ) : ℝ) ^ 2 :=
    cells_eq_close _ hspos _ _ (cellCol n c.1) hxp1 hxp2 hxc1 hxc2
  have hy : (((p.2 - boundsY : ℚ) : ℝ) - ((c.2 - boundsY : ℚ) : ℝ)) ^ 2 <
      Real.sqrt ((cellSq n : ℚ) : ℝ) ^ 2 :=
    cells_eq_close _ hspos _ _ (cellRow n c.2) hyp1 hyp2 hyc1 hyc2
  rw [hs2] at hx hy
  have hgoal : ((distSq p c : ℚ) : ℝ) < ((minDistSq n : ℚ) : ℝ) := by
    have hd : ((distSq p c : ℚ) : ℝ) =
        (((p.1 : ℚ) : ℝ) - ((c.1 : ℚ) : ℝ)) ^ 2 +
          (((p.2 : ℚ) : ℝ) - ((c.2 : ℚ) : ℝ)) ^ 2 := by
      unfold distSq
      push_cast
      ring
    have hm : ((minDistSq n : ℚ) : ℝ) = 2 * ((cellSq n : ℚ) : ℝ) := by
      rw [minDistSq_eq_two_cellSq]
      push_cast
      ring
    rw [hd, hm]
    push_cast at hx hy
    nlinarith [hx, hy]
  exact_mod_cast hgoal

/-- An accepted isValid candidate lies in the bounding rectangle and is at
least minDistance away from every accepted point registered in the grid. -/
theorem isValid_far (n : ℕ) (hn : 1 ≤ n) (grid : ℕ → Option Q2) (pts : List Q2)
    (hgrid : ∀ p ∈ pts, grid (gridIdx n p.1 p.2) = some p)
    (hrect : ∀ p ∈ pts, inRect p)
    (x y : ℚ) (hv : isValidPoint n grid x y = true) :
    inRect (x, y) ∧ ∀ p ∈ pts, minDistSq n ≤ distSq (x, y) p := by
  unfold isValidPoint at hv
  split at hv
  · exact absurd hv (by simp)
  · next hcond =>
    push_neg at hcond
    obtain ⟨hx1, hx2, hy1, hy2⟩ := hcond
    have hxin : inRect (x, y) := ⟨hx1, hx2, hy1, hy2⟩
    refine ⟨hxin, ?_⟩
    intro p hp
    by_contra hlt
    push_neg at hlt
    have hcs := cellSq_pos n hn
    have hcsr : (0 : ℝ) < ((cellSq n : ℚ) : ℝ) := by exact_mod_cast hcs
    have hspos : 0 < Real.sqrt ((cellSq n : ℚ) : ℝ) := Real.sqrt_pos.mpr hcsr
    have hs2 : Real.sqrt ((cellSq n : ℚ) : ℝ) ^ 2 = ((cellSq n : ℚ) : ℝ) :=
      Real.sq_sqrt (le_of_lt hcsr)
    obtain ⟨hp1, hp2, hp3, hp4⟩ := hrect p hp
    have hdx3 : (x - p.1) ^ 2 < 2 * cellSq n := by
      have h1 : (x - p.1) ^ 2 ≤ distSq (x, y) p := by
        unfold distSq
        nlinarith [sq_nonneg (y - p.2)]
      rw [minDistSq_eq_two_cellSq] at hlt
      linarith
    have hdy3 : (y - p.2) ^ 2 < 2 * cellSq n := by
      have h1 : (y - p.2) ^ 2 ≤ distSq (x, y) p := by
        unfold distSq
        nlinarith [sq_nonneg (x - p.1)]
      rw [minDistSq_eq_two_cellSq] at hlt
      linarith
    have habsx : |((x - p.1 : ℚ) : ℝ)| < 2 * Real.sqrt ((cellSq n : ℚ) : ℝ) := by
      apply abs_lt_of_sq_lt_sq'' _ _ (by positivity)
      rw [mul_pow, hs2]
      have h3r : ((x - p.1 : ℚ) : ℝ) ^ 2 < 2 * ((cellSq n : ℚ) : ℝ) := by
        exact_mod_cast hdx3
      nlinarith [hcsr]
    have habsy : |((y - p.2 : ℚ) : ℝ)| < 2 * Real.sqrt ((cellSq n : ℚ) : ℝ) := by
      apply abs_lt_of_sq_lt_sq'' _ _ (by positivity)
      rw [mul_pow, hs2]
      have h3r : ((y - p.2 : ℚ) : ℝ) ^ 2 < 2 * ((cellSq n : ℚ) : ℝ) := by
        exact_mod_cast hdy3
      nlinarith [hcsr]
    obtain ⟨hxa1, hxa2⟩ := cellCol_bounds n hn x hx1
    obtain ⟨hpa1, hpa2⟩ := cellCol_bounds n hn p.1 hp1
    obtain ⟨hya1, hya2⟩ := cellRow_bounds n hn y hy1
    obtain ⟨hpb1, hpb2⟩ := cellRow_bounds n hn p.2 hp3
    have hccx : cellCol n p.1 ≤ cellCol n x + 2 ∧
        cellCol n x ≤ cellCol n p.1 + 2 := by
      apply cells_close _ hspos _ _ _ _ hxa1 hxa2 hpa1 hpa2
      have heq : ((x - boundsX : ℚ) : ℝ) - ((p.1 - boundsX : ℚ) : ℝ) =
          ((x - p.1 : ℚ) : ℝ) := by
        push_cast
        ring
      rw [heq]
      exact habsx
    have hccy : cellRow n p.2 ≤ cellRow n y + 2 ∧
        cellRow n y ≤ cellRow n p.2 + 2 := by
      apply cells_close _ hspos _ _ _ _ hya1 hya2 hpb1 hpb2
      have heq : ((y - boundsY : ℚ) : ℝ) - ((p.2 - boundsY : ℚ) : ℝ) =
          ((y - p.2 : ℚ) : ℝ) := by
        push_cast
        ring
      rw [heq]
      exact habsy
    have hrowlt := cellRow_lt_gridH n hn p.2 hp3 hp4
    have hcollt := cellCol_lt_gridW n hn p.1 hp1 hp2
    have hrmem : cellRow n p.2 ∈
        scanRange (cellRow n y - 2) (Nat.min (gridH n - 1) (cellRow n y + 2)) := by
      rw [mem_scanRange]
      refine ⟨by omega, Nat.le_min.mpr ⟨by omega, by omega⟩⟩
    have hcmem : cellCol n p.1 ∈
        scanRange (cellCol n x - 2) (Nat.min (gridW n - 1) (cellCol n x + 2)) := by
      rw [mem_scanRange]
      refine ⟨by omega, Nat.le_min.mpr ⟨by omega, by omega⟩⟩
    try dsimp only at hv
    rw [List.all_eq_true] at hv
    have hv2 := hv _ hrmem
    try dsimp only at hv2
    rw [List.all_eq_true] at hv2
    have hv3 := hv2 _ hcmem
    try dsimp only at hv3
    have hidx : cellRow n p.2 * gridW n + cellCol n p.1 = gridIdx n p.1 p.2 := rfl
    rw [hidx, hgrid p hp] at hv3
    rw [decide_eq_true_eq] at hv3
    exact absurd hv3 (not_le.mpr hlt)

theorem tryCands_some_valid (n : ℕ) (grid : ℕ → Option Q2) (cand : ℕ → Q2) :
    ∀ (b k : ℕ) (c : Q2) (k2 : ℕ), tryCands n grid cand b k = (some c, k2) →
      isValidPoint n grid c.1 c.2 = true := by
  intro b
  induction b with
  | zero =>
    intro k c k2 h
    exact absurd h (by simp [tryCands])
  | succ m ih =>
    intro k c k2 h
    simp only [tryCands] at h
    split at h
    · next hval =>
      simp only [Prod.mk.injEq, Option.some_inj] at h
      obtain ⟨hc, _⟩ := h
      rw [← hc]
      exact hval
    · exact ih _ _ _ h

theorem tryCands_snd_le (n : ℕ) (grid : ℕ → Option Q2) (cand : ℕ → Q2) :
    ∀ b k, (tryCands n grid cand b k).2 ≤ k + b := by
  intro b
  induction b with
  | zero =>
    intro k
    simp [tryCands]
  | succ m ih =>
    intro k
    simp only [tryCands]
    split
    · dsimp only
      omega
    · have := ih (k + 1)
      omega

theorem pdLoop_spec (n : ℕ) (hn : 1 ≤ n) (rand : ℕ → ℚ) (cand : ℕ → Q2) :
    ∀ (fuel : ℕ) (s : PDState), 2 * (n - s.pts.length) + s.act.length ≤ fuel →
      PDInv n s →
      (pdLoop n rand cand s).length ≤ n ∧
        (∀ p ∈ pdLoop n rand cand s, inRect p) ∧
        (pdLoop n rand cand s).Pairwise fun p q => minDistSq n ≤ distSq p q := by
  intro fuel
  induction fuel with
  | zero =>
    intro s hfuel hinv
    have hact : s.act.length = 0 := by omega
    rw [pdLoop, dif_pos (Or.inl hact)]
    exact ⟨hinv.1, hinv.2.1, hinv.2.2.1⟩
  | succ m ih =>
    intro s hfuel hinv
    obtain ⟨hlen, hrect, hpair, hgridA, hgridB⟩ := hinv
    rw [pdLoop]
    split
    · exact ⟨hlen, hrect, hpair⟩
    · next h =>
      have hact : s.act.length ≠ 0 := fun h0 => h (Or.inl h0)
      have hpts : s.pts.length < n := by
        rcases Nat.lt_or_ge s.pts.length n with h1 | h1
        · exact h1
        · exact absurd (Or.inr h1) h
      try dsimp only
      rcases htc : tryCands n s.grid cand 30 s.ck with ⟨oc, ck2⟩
      cases oc with
      | some c =>
        try dsimp only
        have hvalid : isValidPoint n s.grid c.1 c.2 = true :=
          tryCands_some_valid n s.grid cand 30 s.ck c ck2 htc
        have hfar := isValid_far n hn s.grid s.pts hgridA hrect c.1 c.2 hvalid
        have hceta : ((c.1, c.2) : Q2) = c := rfl
        rw [hceta] at hfar
        obtain ⟨hcin, hcfar⟩ := hfar
        apply ih
        · simp only [List.length_append, List.length_singleton]
          omega
        · refine ⟨?_, ?_, ?_, ?_, ?_⟩
          · simp only [List.length_append, List.length_singleton]
            omega
          · intro p hp
            rcases List.mem_append.mp hp with h1 | h1
            · exact hrect p h1
            · rw [List.mem_singleton] at h1
              subst h1
              exact hcin
          · rw [List.pairwise_append]
            refine ⟨hpair, List.pairwise_singleton _ _, ?_⟩
            intro a ha b hb
            rw [List.mem_singleton] at hb
            subst hb
            rw [distSq_comm]
            exact hcfar a ha
          · intro p hp
            rcases List.mem_append.mp hp with h1 | h1
            · have hne : gridIdx n p.1 p.2 ≠ gridIdx n c.1 c.2 := by
                intro heq
                have hclose := gridIdx_far n hn p c (hrect p h1) hcin heq
                have hfarp := hcfar p h1
                rw [distSq_comm] at hfarp
                exact absurd hclose (not_lt.mpr hfarp)
              simp only [if_neg hne]
              exact hgridA p h1
            · rw [List.mem_singleton] at h1
              subst h1
              simp
          · intro i p hp
            try dsimp only at hp ⊢
            by_cases hi : i = gridIdx n c.1 c.2
            · rw [if_pos hi] at hp
              rw [Option.some_inj] at hp
              subst hp
              refine ⟨List.mem_append.mpr (Or.inr (by simp)), hi⟩
            · rw [if_neg hi] at hp
              obtain ⟨hmem, hidx⟩ := hgridB i p hp
              exact ⟨List.mem_append.mpr (Or.inl hmem), hidx⟩
      | none =>
        try dsimp only
        apply ih
        · have hidxlt : (Int.toNat ⌊rand s.rk * (s.act.length : ℚ)⌋).min
              (s.act.length - 1) < s.act.length :=
            Nat.lt_of_le_of_lt (Nat.min_le_right _ _)
              (Nat.sub_lt (Nat.pos_of_ne_zero hact) Nat.one_pos)
          try dsimp only
          rw [List.length_eraseIdx, if_pos hidxlt]
          omega
        · exact ⟨hlen, hrect, hpair, hgridA, hgridB⟩

end Mapgen

/-- C9: for every target count n >= 1 and all random/candidate streams (the
random draws lying in [0,1)), Poisson-disc sampling terminates (it is a
total function defined by well-founded recursion) and returns at most n
points, each inside the bounding rectangle, with every two points at
squared distance at least minDistance^2 = (0.8)^2 * (width*height/n); and
the candidate loop around an active point consumes at most its 30-attempt
budget from the candidate stream before the point is abandoned. -/
theorem c9_theorem (n : ℕ) (hn : 1 ≤ n) (rand : ℕ → ℚ) (cand : ℕ → Q2)
    (hr : ∀ k, 0 ≤ rand k ∧ rand k < 1) :
    (Mapgen.poissonDiscSampling n rand cand).length ≤ n ∧
      (∀ p ∈ Mapgen.poissonDiscSampling n rand cand, Mapgen.inRect p) ∧
      ((Mapgen.poissonDiscSampling n rand cand).Pairwise fun p q =>
        Mapgen.minDistSq n ≤ distSq p q) ∧
      ∀ (grid : ℕ → Option Q2) (k : ℕ),
        (Mapgen.tryCands n grid cand 30 k).2 ≤ k + 30 := by
  have hr0 := hr 0
  have hr1 := hr 1
  have hw : (0 : ℚ) < Mapgen.boundsW := by norm_num [Mapgen.boundsW]
  have hh : (0 : ℚ) < Mapgen.boundsH := by norm_num [Mapgen.boundsH]
  have hsx1 : Mapgen.boundsX ≤ Mapgen.boundsX + rand 0 * Mapgen.boundsW := by
    nlinarith [hr0.1]
  have hsx2 : Mapgen.boundsX + rand 0 * Mapgen.boundsW <
      Mapgen.boundsX + Mapgen.boundsW := by
    nlinarith [hr0.2]
  have hsy1 : Mapgen.boundsY ≤ Mapgen.boundsY + rand 1 * Mapgen.boundsH := by
    nlinarith [hr1.1]
  have hsy2 : Mapgen.boundsY + rand 1 * Mapgen.boundsH <
      Mapgen.boundsY + Mapgen.boundsH := by
    nlinarith [hr1.2]
  have hinv : Mapgen.PDInv n
      ⟨[(Mapgen.boundsX + rand 0 * Mapgen.boundsW,
          Mapgen.boundsY + rand 1 * Mapgen.boundsH)],
        [(Mapgen.boundsX + rand 0 * Mapgen.boundsW,
          Mapgen.boundsY + rand 1 * Mapgen.boundsH)],
        fun i => if i = Mapgen.gridIdx n
            (Mapgen.boundsX + rand 0 * Mapgen.boundsW)
            (Mapgen.boundsY + rand 1 * Mapgen.boundsH) then
          some (Mapgen.boundsX + rand 0 * Mapgen.boundsW,
            Mapgen.boundsY + rand 1 * Mapgen.boundsH)
        else none, 0, 2⟩ := by
    refine ⟨by simpa using hn, ?_, ?_, ?_, ?_⟩
    · intro p hp
      rw [List.mem_singleton] at hp
      subst hp
      exact ⟨hsx1, hsx2, hsy1, hsy2⟩
    · exact List.pairwise_singleton _ _
    · intro p hp
      rw [List.mem_singleton] at hp
      subst hp
      simp
    · intro i p hp
      dsimp only at hp
      split at hp
      · next hi =>
        rw [Option.some_inj] at hp
        subst hp
        exact ⟨by simp, hi⟩
      · exact absurd hp (by simp)
  have hkey := Mapgen.pdLoop_spec n hn rand cand (2 * n + 1) _ (by
    dsimp only
    simp only [List.length_singleton]
    omega) hinv
  have hdef : Mapgen.poissonDiscSampling n rand cand = Mapgen.pdLoop n rand cand
      ⟨[(Mapgen.boundsX + rand 0 * Mapgen.boundsW,
          Mapgen.boundsY + rand 1 * Mapgen.boundsH)],
        [(Mapgen.boundsX + rand 0 * Mapgen.boundsW,
          Mapgen.boundsY + rand 1 * Mapgen.boundsH)],
        fun i => if i = Mapgen.gridIdx n
            (Mapgen.boundsX + rand 0 * Mapgen.boundsW)
            (Mapgen.boundsY + rand 1 * Mapgen.boundsH) then
          some (Mapgen.boundsX + rand 0 * Mapgen.boundsW,
            Mapgen.boundsY + rand 1 * Mapgen.boundsH)
        else none, 0, 2⟩ := rfl
  rw [hdef]
  exact ⟨hkey.1, hkey.2.1, hkey.2.2,
    fun grid k => Mapgen.tryCands_snd_le n grid cand 30 k⟩

/-- C9 witness: the sampler with n = 1 and constant streams. -/
theorem c9_witness :
    (Mapgen.poissonDiscSampling 1 (fun _ => 0) (fun _ => (0, 0))).length ≤ 1 ∧
      ∀ p ∈ Mapgen.poissonDiscSampling 1 (fun _ => 0) (fun _ => (0, 0)),
        Mapgen.inRect p := by
  have h := c9_theorem 1 (le_refl 1) (fun _ => 0) (fun _ => (0, 0))
    (fun _ => ⟨le_refl 0, by norm_num⟩)
  exact ⟨h.1, h.2.1⟩

/-- C10 witness: the amended theorem evaluated at concrete inputs. -/
theorem c10_witness :
    0 ≤ (Utils.next ⟨5⟩).1 ∧
      0 ≤ (Utils.nextInt 0 3 ⟨5⟩).1 ∧
      ((Utils.shuffle [1, 2, 3] ⟨7⟩).1).Perm [1, 2, 3] :=
  ⟨(c10_theorem.1 5 (by norm_num)).1,
    (c10_theorem.2.2.1 5 0 3 (by norm_num) (by norm_num)).1,
    c10_theorem.2.2.2 ℕ [1, 2, 3] ⟨7⟩⟩

end Natac
